import Mathlib

/-!
Formal model of the shape-transformation operators of
`topi/python/topi/transform.py`: `expand_dims`, `transpose`, `reshape`,
`concatenate` and `split`, together with the fragment of Python
list/indexing semantics (negative indices, slices, `range`) those
operators rely on.

A tensor descriptor is a shape plus a coordinate function; `tvm.compute`
is modelled as building such a descriptor, and `tvm.select(c, t, f)` as
the conditional whose value is `t` when `c` holds and `f` otherwise.
Failing `assert` statements, out-of-range list indexing and
`raise NotImplementedError` are modelled with `Except`.
-/

namespace Topi

/-- Errors the Python code can raise: a failed `assert`, an out-of-range
list index, and `raise NotImplementedError`. -/
inductive PyErr where
  | assertionError
  | indexError
  | notImplementedError
deriving DecidableEq

instance instDecEqExcept {ε α : Type} [DecidableEq ε] [DecidableEq α] :
    DecidableEq (Except ε α) := fun x y =>
  match x, y with
  | .ok a, .ok b =>
    match decEq a b with
    | .isTrue h => .isTrue (congrArg Except.ok h)
    | .isFalse h => .isFalse (fun hh => h (Except.ok.inj hh))
  | .error a, .error b =>
    match decEq a b with
    | .isTrue h => .isTrue (congrArg Except.error h)
    | .isFalse h => .isFalse (fun hh => h (Except.error.inj hh))
  | .ok _, .error _ => .isFalse (fun hh => Except.noConfusion hh)
  | .error _, .ok _ => .isFalse (fun hh => Except.noConfusion hh)

/-- A tensor descriptor: a shape and a coordinate function
(spec §3 data model).  Shape entries are integers; the coordinate
function maps an output coordinate vector to a value. -/
structure Tensor (α : Type) where
  shape : List Int
  fn : List Int → α

/-- Resolve a Python index against a list length: a negative index
counts from the end. -/
def pyIdx (len : Nat) (i : Int) : Int := if i < 0 then i + len else i

/-- Python list indexing `l[i]`: a negative index counts from the end,
an index out of range raises `IndexError`. -/
def pyGet (l : List α) (i : Int) : Except PyErr α :=
  if h : 0 ≤ pyIdx l.length i ∧ pyIdx l.length i < l.length then
    .ok (l.get ⟨(pyIdx l.length i).toNat, by omega⟩)
  else .error .indexError

/-- Total variant of Python list indexing used inside coordinate
functions, returning `d` out of range (in-range behaviour is identical
to `pyGet`). -/
def pyGetD (l : List α) (i : Int) (d : α) : α :=
  if h : 0 ≤ pyIdx l.length i ∧ pyIdx l.length i < l.length then
    l.get ⟨(pyIdx l.length i).toNat, by omega⟩
  else d

/-- Python list assignment `l[i] = v` (total variant: out of range is a
no-op; in range it matches Python). -/
def pySet (l : List α) (i : Int) (v : α) : List α :=
  if 0 ≤ pyIdx l.length i ∧ pyIdx l.length i < l.length then
    l.set (pyIdx l.length i).toNat v
  else l

/-- Python slice `l[:i]` (never raises; negative `i` counts from the
end, clamped at the ends). -/
def pySliceTo (l : List α) (i : Int) : List α :=
  if i < 0 then l.take (i + l.length).toNat else l.take i.toNat

/-- Python slice `l[i:]` (never raises; negative `i` counts from the
end, clamped at the ends). -/
def pySliceFrom (l : List α) (i : Int) : List α :=
  if i < 0 then l.drop (i + l.length).toNat else l.drop i.toNat

/-- `intRange a n = [a, a+1, ..., a+n-1]`. -/
def intRange (a : Int) : Nat → List Int
  | 0 => []
  | n + 1 => a :: intRange (a + 1) n

/-- Python `range(a, b)` over integers. -/
def pyRange (a b : Int) : List Int := intRange a (b - a).toNat

/-- Evaluate a Python list comprehension whose body may raise: elements
are produced left to right and the first error propagates. -/
def mapE (f : β → Except PyErr γ) : List β → Except PyErr (List γ)
  | [] => .ok []
  | b :: bs =>
    match f b with
    | .error e => .error e
    | .ok c =>
      match mapE f bs with
      | .error e => .error e
      | .ok cs => .ok (c :: cs)

/-- A coordinate is within the bounds of a shape: same length and
`0 ≤ cᵢ < sᵢ` pointwise. -/
def inBounds : List Int → List Int → Prop
  | [], [] => True
  | c :: cs, s :: ss => (0 ≤ c ∧ c < s) ∧ inBounds cs ss
  | _, _ => False

instance instDecidableInBounds : (c s : List Int) → Decidable (inBounds c s)
  | [], [] => .isTrue trivial
  | [], _ :: _ => .isFalse (fun h => h)
  | _ :: _, [] => .isFalse (fun h => h)
  | _ :: cs, _ :: ss => @instDecidableAnd _ _ inferInstance (instDecidableInBounds cs ss)

/-- Python `tuple(l) == tuple(sorted(l))`: the list is sorted in
non-decreasing order. -/
def isSorted : List Int → Bool
  | [] => true
  | [_] => true
  | x :: y :: rest => x ≤ y && isSorted (y :: rest)

/-- The `indices_or_sections` argument of `split`: a Python `int`, a
`tuple`/`list` of boundaries, or a value of any other type. -/
inductive IndicesOrSections where
  | int (n : Int)
  | sections (l : List Int)
  | other

/-- Modelled from the spec: `ravel_index` is imported from the
repository's `topi/util.py`, which is not among the sources; per §4.1,
`ravel(coord, shape)` computes `sum_i coord[i] * stride[i]` with
`stride[i] = product(shape[i+1:])` (row-major). -/
def ravel_index : List Int → List Int → Int
  | i :: is, _ :: ss => i * ss.prod + ravel_index is ss
  | _, _ => 0

/-- Modelled from the spec: `unravel_index` is imported from the
repository's `topi/util.py`, which is not among the sources; per §4.1 it
recovers each axis coordinate by successive integer division/remainder
against the suffix products of the shape, most-significant axis first. -/
def unravel_index : Int → List Int → List Int
  | _, [] => []
  | flat, _ :: ss => flat / ss.prod :: unravel_index (flat % ss.prod) ss

/-- The normalized insertion axis of `expand_dims` (transform.py line 24):
`len(a.shape) + axis + 1` when the axis is negative. -/
def expandAxis (rank : Nat) (axis0 : Int) : Int :=
  if axis0 < 0 then rank + axis0 + 1 else axis0

/-- The normalized axis of `concatenate` and `split` (transform.py lines
97–98 and 136–137): add the rank when the axis is negative. -/
def normAxis (rank : Nat) (axis0 : Int) : Int :=
  if axis0 < 0 then axis0 + rank else axis0

/-- `expand_dims(a, axis, num_newaxis)` (transform.py lines 24–29):
normalize a negative axis as `rank + axis + 1`, insert `num_newaxis`
ones into the shape at `axis`, and drop the inserted coordinates before
reading `a`. -/
def expand_dims (a : Tensor α) (axis0 : Int) (num_newaxis : Nat := 1) : Tensor α :=
  let axis : Int := expandAxis a.shape.length axis0
  { shape := pySliceTo a.shape axis ++ List.replicate num_newaxis (1 : Int) ++
      pySliceFrom a.shape axis,
    fn := fun indices =>
      a.fn (pySliceTo indices axis ++ pySliceFrom indices (axis + num_newaxis)) }

/-- The effective `axes` of `transpose` (transform.py line 49):
`axes if axes else tuple(reversed(range(ndim)))`, where both `None` and
an empty sequence are falsy. -/
def transposeAxes (ndim : Nat) (axes? : Option (List Int)) : List Int :=
  match axes? with
  | none => (List.range ndim).reverse.map Int.ofNat
  | some l => if l.isEmpty then (List.range ndim).reverse.map Int.ofNat else l

/-- The input coordinate built by `transpose`'s `_compute`
(transform.py lines 51–55): start from `idx = [1] * len(axes)` and set
`idx[k] = indices[i]` for `i, k in enumerate(axes)`. -/
def transposeIdx (axes indices : List Int) : List Int :=
  (axes.zip indices).foldl (fun idx p => pySet idx p.1 p.2)
    (List.replicate axes.length (1 : Int))

/-- `transpose(a, axes)` (transform.py lines 33–56). -/
def transpose (a : Tensor α) (axes? : Option (List Int) := none) :
    Except PyErr (Tensor α) := do
  let axes := transposeAxes a.shape.length axes?
  let new_shape ← mapE (pyGet a.shape) axes
  pure { shape := new_shape, fn := fun indices => a.fn (transposeIdx axes indices) }

/-- `reshape(a, newshape)` (transform.py lines 60–77): read `a` at
`unravel_index(ravel_index(indices, newshape), a_shape)`. -/
def reshape (a : Tensor α) (newshape : List Int) : Tensor α :=
  { shape := newshape,
    fn := fun indices =>
      a.fn (unravel_index (ravel_index indices newshape) a.shape) }

/-- One iteration of `concatenate`'s `_compute` loop (transform.py
lines 107–111): subtract the next axis size from the running index and
guard the next input with `tvm.select(ind >= 0, ...)`. -/
def concatStep (mkIdx : Int → List Int) (acc : Int × α) (p : Int × Tensor α) :
    Int × α :=
  let ind := acc.1 - p.1
  (ind, if 0 ≤ ind then p.2.fn (mkIdx ind) else acc.2)

/-- `concatenate(a_tuple, axis)` (transform.py lines 81–113): normalize
the axis against the first input's rank, `assert axis < rank`, derive
the output shape, and build the cascaded-select coordinate function.
The loop over `i in range(len(a_tuple) - 1)` pairs `axis_sizes[i]` with
`a_tuple[i + 1]`, i.e. it folds over `axis_sizes.zip (a_tuple.drop 1)`. -/
def concatenate (a_tuple : List (Tensor α)) (axis0 : Int := 0) :
    Except PyErr (Tensor α) := do
  let a0 ← pyGet a_tuple 0
  let axis : Int := normAxis a0.shape.length axis0
  if axis < a0.shape.length then
    let axis_sizes ← mapE (fun t => pyGet t.shape axis) a_tuple
    let pre ← mapE (pyGet a0.shape) (pyRange 0 axis)
    let post ← mapE (pyGet a0.shape) (pyRange (axis + 1) a0.shape.length)
    pure { shape := pre ++ [axis_sizes.sum] ++ post,
           fn := fun indices =>
             ((axis_sizes.zip (a_tuple.drop 1)).foldl
               (concatStep fun ind =>
                 pySliceTo indices axis ++ [ind] ++ pySliceFrom indices (axis + 1))
               (pyGetD indices axis 0, a0.fn indices)).2 }
  else throw .assertionError

/-- The `_compute` closure of `split` (transform.py lines 132–134): one
output tensor that reads `ary` with the coordinate at `axis` translated
by the constant `begin` offset. -/
def splitPart (ary : Tensor α) (axis b : Int) (shape : List Int) : Tensor α :=
  { shape := shape,
    fn := fun indices =>
      ary.fn (pySliceTo indices axis ++ [pyGetD indices axis 0 + b] ++
        pySliceFrom indices (axis + 1)) }

/-- The `begin_ids` derivation of `split` (transform.py lines 139–149):
the `assert`s on an integer count, the sortedness `assert` on a boundary
sequence, and `raise NotImplementedError` otherwise. -/
def splitBegins (src_axis_size : Int) :
    IndicesOrSections → Except PyErr (List Int)
  | .int n =>
    if 0 < n then
      if src_axis_size % n = 0 then
        pure ((pyRange 0 n).map (fun i => src_axis_size / n * i))
      else throw .assertionError
    else throw .assertionError
  | .sections l =>
    if isSorted l then pure ((0 : Int) :: l) else throw .assertionError
  | .other => throw .notImplementedError

/-- `split(ary, indices_or_sections, axis)` (transform.py lines
117–161): normalize the axis, read the (constant) source axis size,
derive `begin_ids` from the split specification (with its `assert`s),
derive one output shape per segment, and build one offset-translated
output tensor per segment. -/
def split (ary : Tensor α) (indices_or_sections : IndicesOrSections)
    (axis0 : Int := 0) : Except PyErr (List (Tensor α)) := do
  let axis : Int := normAxis ary.shape.length axis0
  let src_axis_size ← pyGet ary.shape axis
  let begin_ids : List Int ← splitBegins src_axis_size indices_or_sections
  let out_shapes ← mapE (fun i => do
      let pre ← mapE (pyGet ary.shape) (pyRange 0 axis)
      let post ← mapE (pyGet ary.shape) (pyRange (axis + 1) ary.shape.length)
      let out_axis_size :=
        if i = begin_ids.length - 1 then src_axis_size - begin_ids.getD i 0
        else begin_ids.getD (i + 1) 0 - begin_ids.getD i 0
      pure (pre ++ [out_axis_size] ++ post)) (List.range begin_ids.length)
  pure ((out_shapes.zip begin_ids).map (fun p => splitPart ary axis p.2 p.1))

/-- A concrete tensor whose value at a coordinate is the coordinate
itself; used to exhibit concrete behaviours. -/
def idTensor (s : List Int) : Tensor (List Int) := ⟨s, fun c => c⟩

/-- The axis size of a tensor at (non-negative, resolved) axis `ax`. -/
def axisSize (ax : Nat) (t : Tensor α) : Int := t.shape.getD ax 0

/-- Sum of the axis sizes of the first `j` tensors of a list: the
cumulative offset of segment `j` in a concatenation. -/
def axSumTo (ax : Nat) (l : List (Tensor α)) (j : Nat) : Int :=
  ((l.take j).map (axisSize ax)).sum

end Topi

namespace Topi

/-! ### Basic lemmas about the Python-semantics helpers -/

theorem inBounds_length : ∀ {c s : List Int}, inBounds c s → c.length = s.length
  | [], [], _ => rfl
  | [], _ :: _, h => h.elim
  | _ :: _, [], h => h.elim
  | _ :: cs, _ :: ss, h => by
    simpa using inBounds_length (c := cs) (s := ss) h.2

theorem inBounds_append : ∀ {c₁ s₁ : List Int} (c₂ s₂ : List Int),
    c₁.length = s₁.length →
    (inBounds (c₁ ++ c₂) (s₁ ++ s₂) ↔ inBounds c₁ s₁ ∧ inBounds c₂ s₂)
  | [], [], c₂, s₂, _ => by simp [inBounds]
  | [], _ :: _, _, _, h => by simp at h
  | _ :: _, [], _, _, h => by simp at h
  | c :: cs, s :: ss, c₂, s₂, h => by
    simp only [List.cons_append, inBounds, List.append_eq]
    rw [inBounds_append c₂ s₂ (by simpa using h)]
    tauto

theorem inBounds_take : ∀ {c s : List Int}, inBounds c s →
    ∀ (k : Nat), inBounds (c.take k) (s.take k)
  | [], [], _, k => by simp [inBounds]
  | [], _ :: _, h, _ => h.elim
  | _ :: _, [], h, _ => h.elim
  | c :: cs, s :: ss, h, 0 => by simp [inBounds]
  | c :: cs, s :: ss, h, k + 1 => by
    simp only [List.take_succ_cons]
    exact ⟨h.1, inBounds_take h.2 k⟩

theorem inBounds_drop : ∀ {c s : List Int}, inBounds c s →
    ∀ (k : Nat), inBounds (c.drop k) (s.drop k)
  | [], [], _, k => by simp [inBounds]
  | [], _ :: _, h, _ => h.elim
  | _ :: _, [], h, _ => h.elim
  | c :: cs, s :: ss, h, 0 => h
  | c :: cs, s :: ss, h, k + 1 => by
    simp only [List.drop_succ_cons]
    exact inBounds_drop h.2 k

theorem inBounds_getD : ∀ {c s : List Int}, inBounds c s →
    ∀ {i : Nat}, i < c.length → 0 ≤ c.getD i 0 ∧ c.getD i 0 < s.getD i 0
  | [], [], _, i, hi => by simp at hi
  | [], _ :: _, h, _, _ => h.elim
  | _ :: _, [], h, _, _ => h.elim
  | c :: cs, s :: ss, h, 0, _ => h.1
  | c :: cs, s :: ss, h, i + 1, hi =>
    inBounds_getD h.2 (by simpa using hi)

theorem inBounds_of_getD : ∀ {c s : List Int}, c.length = s.length →
    (∀ i : Nat, i < c.length → 0 ≤ c.getD i 0 ∧ c.getD i 0 < s.getD i 0) →
    inBounds c s
  | [], [], _, _ => trivial
  | [], _ :: _, h, _ => by simp at h
  | _ :: _, [], h, _ => by simp at h
  | c :: cs, s :: ss, h, hp =>
    ⟨hp 0 (by simp), inBounds_of_getD (by simpa using h)
      (fun i hi => hp (i + 1) (by simpa using hi))⟩

theorem pyIdx_nonneg {len : Nat} {i : Int} (h : 0 ≤ i) : pyIdx len i = i :=
  if_neg (by omega)

theorem pyGet_ok {α : Type} {l : List α} {i : Int} (h0 : 0 ≤ i)
    (h2 : i.toNat < l.length) : pyGet l i = .ok (l.get ⟨i.toNat, h2⟩) := by
  have hc : 0 ≤ pyIdx l.length i ∧ pyIdx l.length i < (l.length : Int) := by
    rw [pyIdx_nonneg h0]; omega
  have hv : pyIdx l.length i = i := pyIdx_nonneg h0
  rw [pyGet, dif_pos hc]
  simp only [hv]

theorem pyGet_err {α : Type} {l : List α} {i : Int}
    (h : (l.length : Int) ≤ i) : pyGet l i = .error .indexError := by
  rw [pyGet, dif_neg]
  rw [pyIdx_nonneg (by omega)]
  omega

theorem pyGetD_in {α : Type} {l : List α} {i : Int} (d : α) (h0 : 0 ≤ i)
    (h2 : i.toNat < l.length) : pyGetD l i d = l.getD i.toNat d := by
  have hc : 0 ≤ pyIdx l.length i ∧ pyIdx l.length i < (l.length : Int) := by
    rw [pyIdx_nonneg h0]; omega
  have hv : pyIdx l.length i = i := pyIdx_nonneg h0
  rw [pyGetD, dif_pos hc, List.getD_eq_getElem _ _ h2]
  simp only [hv, List.get_eq_getElem]

theorem pySliceTo_nonneg {α : Type} (l : List α) {i : Int} (h : 0 ≤ i) :
    pySliceTo l i = l.take i.toNat := by
  simp only [pySliceTo, not_lt.mpr h, if_false]

theorem pySliceFrom_nonneg {α : Type} (l : List α) {i : Int} (h : 0 ≤ i) :
    pySliceFrom l i = l.drop i.toNat := by
  simp only [pySliceFrom, not_lt.mpr h, if_false]

theorem pySet_length {α : Type} (l : List α) (i : Int) (v : α) :
    (pySet l i v).length = l.length := by
  rw [pySet]
  split
  · exact l.length_set _ _
  · rfl

theorem pySet_in {α : Type} {l : List α} {i : Int} (v : α) (h0 : 0 ≤ i)
    (h2 : i.toNat < l.length) : pySet l i v = l.set i.toNat v := by
  have hc : 0 ≤ pyIdx l.length i ∧ pyIdx l.length i < (l.length : Int) := by
    rw [pyIdx_nonneg h0]; omega
  rw [pySet, if_pos hc, pyIdx_nonneg h0]

theorem pySet_getD_self {α : Type} {l : List α} {i : Int} (v d : α) (h0 : 0 ≤ i)
    (h2 : i.toNat < l.length) : (pySet l i v).getD i.toNat d = v := by
  rw [pySet_in v h0 h2, List.getD_eq_getElem _ _ (by simpa using h2)]
  simp

theorem pySet_getD_ne {α : Type} {l : List α} {i : Int} (v d : α) {j : Nat}
    (hne : pyIdx l.length i ≠ (j : Int)) :
    (pySet l i v).getD j d = l.getD j d := by
  rw [pySet]
  split
  case isTrue hc =>
    rcases Nat.lt_or_ge j l.length with hj | hj
    · have hij : (pyIdx l.length i).toNat ≠ j := by omega
      rw [List.getD_eq_getElem _ _ (by simpa using hj),
        List.getD_eq_getElem _ _ hj]
      exact List.getElem_set_ne hij (by simpa using hj)
    · rw [List.getD_eq_default _ _ (by simpa using hj),
        List.getD_eq_default _ _ hj]
  case isFalse => rfl

theorem intRange_length (a : Int) : ∀ (n : Nat), (intRange a n).length = n
  | 0 => rfl
  | n + 1 => by simpa [intRange] using intRange_length (a + 1) n

theorem mem_intRange {x a : Int} : ∀ {n : Nat},
    x ∈ intRange a n ↔ a ≤ x ∧ x < a + n
  | 0 => by simp [intRange]
  | n + 1 => by
    simp only [intRange, List.mem_cons, mem_intRange (n := n)]
    omega

theorem mapE_ok_of_forall {β γ : Type} {f : β → Except PyErr γ} {g : β → γ} :
    ∀ {l : List β}, (∀ b ∈ l, f b = .ok (g b)) → mapE f l = .ok (l.map g)
  | [], _ => rfl
  | b :: bs, h => by
    simp only [mapE, h b (by simp), List.map]
    rw [mapE_ok_of_forall (fun x hx => h x (List.mem_cons_of_mem _ hx))]

theorem mapE_pyGet_intRange {α : Type} (l : List α) :
    ∀ (n : Nat) (a : Int), 0 ≤ a → a.toNat + n ≤ l.length →
    mapE (pyGet l) (intRange a n) = .ok ((l.drop a.toNat).take n)
  | 0, a, _, _ => by simp [intRange, mapE]
  | n + 1, a, h0, h1 => by
    have hlt : a.toNat < l.length := by omega
    simp only [intRange, mapE, pyGet_ok h0 hlt]
    rw [mapE_pyGet_intRange l n (a + 1) (by omega) (by omega)]
    rw [List.drop_eq_getElem_cons hlt, List.take_succ_cons]
    have : (a + 1).toNat = a.toNat + 1 := by omega
    rw [this]
    rfl

theorem mapE_pyGet_range_zero {α : Type} (l : List α) {b : Int}
    (hb : b ≤ l.length) :
    mapE (pyGet l) (pyRange 0 b) = .ok (l.take b.toNat) := by
  have h := mapE_pyGet_intRange l b.toNat 0 le_rfl (by omega)
  rw [pyRange]
  simpa using h

theorem mapE_pyGet_range_from {α : Type} (l : List α) {a : Int} (h0 : 0 ≤ a)
    (ha : a ≤ l.length) :
    mapE (pyGet l) (pyRange a l.length) = .ok (l.drop a.toNat) := by
  have h := mapE_pyGet_intRange l ((l.length : Int) - a).toNat a h0 (by omega)
  have hlen : (l.drop a.toNat).length ≤ ((l.length : Int) - a).toNat := by
    simp only [List.length_drop]
    omega
  rw [pyRange, h, List.take_of_length_le hlen]

end Topi

namespace Topi

/-! ### Ravel / unravel bounds (spec §4.1) -/

theorem unravel_length : ∀ (s : List Int) (flat : Int),
    (unravel_index flat s).length = s.length
  | [], _ => rfl
  | _ :: ss, flat => by
    simpa [unravel_index] using unravel_length ss (flat % ss.prod)

theorem prod_pos_of_inBounds : ∀ {c s : List Int}, inBounds c s → 0 < s.prod
  | [], [], _ => by simp
  | [], _ :: _, h => h.elim
  | _ :: _, [], h => h.elim
  | c :: cs, s :: ss, h => by
    have hrest := prod_pos_of_inBounds h.2
    have hs : 0 < s := by have := h.1; omega
    simp only [List.prod_cons]
    exact mul_pos hs hrest

theorem ravel_bounds : ∀ {c s : List Int}, inBounds c s →
    0 ≤ ravel_index c s ∧ ravel_index c s < s.prod
  | [], [], _ => by simp [ravel_index]
  | [], _ :: _, h => h.elim
  | _ :: _, [], h => h.elim
  | c :: cs, s :: ss, h => by
    obtain ⟨r0, r1⟩ := ravel_bounds h.2
    have hP : 0 < ss.prod := prod_pos_of_inBounds h.2
    obtain ⟨hc0, hcs⟩ := h.1
    simp only [ravel_index, List.prod_cons]
    constructor
    · have := mul_nonneg hc0 hP.le
      omega
    · have hstep : c * ss.prod ≤ (s - 1) * ss.prod :=
        mul_le_mul_of_nonneg_right (by omega) hP.le
      nlinarith

theorem unravel_bounds : ∀ (s : List Int), (∀ x ∈ s, 0 < x) →
    ∀ (flat : Int), 0 ≤ flat → flat < s.prod →
    inBounds (unravel_index flat s) s
  | [], _, _, _, _ => trivial
  | s :: ss, hpos, flat, h0, h1 => by
    have hP : 0 < ss.prod :=
      List.prod_pos (fun x hx => hpos x (List.mem_cons_of_mem _ hx))
    have hs : 0 < s := hpos s (List.mem_cons_self _ _)
    simp only [unravel_index, inBounds]
    refine ⟨⟨Int.ediv_nonneg h0 hP.le, ?_⟩,
      unravel_bounds ss (fun x hx => hpos x (List.mem_cons_of_mem _ hx)) _
        (Int.emod_nonneg flat (by omega)) (Int.emod_lt_of_pos flat hP)⟩
    rw [Int.ediv_lt_iff_lt_mul hP]
    simpa [List.prod_cons, mul_comm] using h1

end Topi

namespace Topi

/-! ### C1: reshape round-trip -/

/-- C1: for every tensor `a` with (positive) shape `S` and every `newshape`
whose element count equals `S`'s, at every coordinate `out` valid for
`newshape` the recovered coordinate
`unravel_index (ravel_index out newshape) S` lies within `S`'s bounds and
`reshape a newshape` reads `a` exactly there; concretely a `[2,3]` tensor
reshaped to `[3,2]` places the element originally at `[1,2]` (flat index 5)
at reshaped coordinate `[2,1]`. -/
theorem reshape_roundtrip {α : Type} (a : Tensor α) (newshape : List Int)
    (hpos : ∀ x ∈ a.shape, 0 < x)
    (hprod : newshape.prod = a.shape.prod)
    (out : List Int) (hout : inBounds out newshape) :
    inBounds (unravel_index (ravel_index out newshape) a.shape) a.shape ∧
    (reshape a newshape).fn out =
      a.fn (unravel_index (ravel_index out newshape) a.shape) ∧
    ∀ (b : Tensor α), b.shape = [2, 3] →
      (reshape b [3, 2]).fn [2, 1] = b.fn [1, 2] := by
  obtain ⟨h0, h1⟩ := ravel_bounds hout
  refine ⟨unravel_bounds a.shape hpos _ h0 (hprod ▸ h1), rfl, ?_⟩
  intro b hb
  show b.fn (unravel_index (ravel_index [2, 1] [3, 2]) b.shape) = b.fn [1, 2]
  rw [hb]
  congr 1

/-- Witness for C1 at the spec's concrete instance. -/
theorem reshape_roundtrip_witness :
    inBounds (unravel_index (ravel_index [2, 1] [3, 2]) (idTensor [2, 3]).shape)
      (idTensor [2, 3]).shape ∧
    (reshape (idTensor [2, 3]) [3, 2]).fn [2, 1] =
      (idTensor [2, 3]).fn
        (unravel_index (ravel_index [2, 1] [3, 2]) (idTensor [2, 3]).shape) ∧
    ∀ (b : Tensor (List Int)), b.shape = [2, 3] →
      (reshape b [3, 2]).fn [2, 1] = b.fn [1, 2] :=
  reshape_roundtrip (idTensor [2, 3]) [3, 2] (by decide) (by decide) [2, 1]
    (by decide)

end Topi

namespace Topi

/-! ### C9: expand_dims -/

theorem expandAxis_nonneg_id {rank : Nat} {axis0 : Int} (h : 0 ≤ axis0) :
    expandAxis rank axis0 = axis0 := if_neg (by omega)

theorem normAxis_nonneg_id {rank : Nat} {axis0 : Int} (h : 0 ≤ axis0) :
    normAxis rank axis0 = axis0 := if_neg (by omega)

/-- C9: for a tensor of rank `r` and `num_newaxis ≥ 1`, `expand_dims`
inserts `num_newaxis` size-1 entries at the normalized position
(`r + axis + 1` for a negative axis, `axis` otherwise) and its value at
an output coordinate reads `a` at that coordinate with the inserted
positions dropped; concretely, `axis=1, num_newaxis=2` on a `[4,5]`
tensor gives shape `[4,1,1,5]` with value at `[i,0,0,j]` equal to the
input at `[i,j]`. -/
theorem expand_dims_spec {α : Type} (a : Tensor α) (axis0 : Int) (n : Nat)
    (hn : 1 ≤ n)
    (h0 : 0 ≤ expandAxis a.shape.length axis0)
    (h1 : expandAxis a.shape.length axis0 ≤ a.shape.length) :
    (expand_dims a axis0 n).shape =
      a.shape.take (expandAxis a.shape.length axis0).toNat ++
        List.replicate n (1 : Int) ++
        a.shape.drop (expandAxis a.shape.length axis0).toNat ∧
    (∀ out : List Int,
      (expand_dims a axis0 n).fn out =
        a.fn (out.take (expandAxis a.shape.length axis0).toNat ++
          out.drop ((expandAxis a.shape.length axis0).toNat + n))) ∧
    ∀ (b : Tensor α), b.shape = [4, 5] →
      (expand_dims b 1 2).shape = [4, 1, 1, 5] ∧
      ∀ i j : Int, (expand_dims b 1 2).fn [i, 0, 0, j] = b.fn [i, j] := by
  refine ⟨?_, ?_, ?_⟩
  · show pySliceTo a.shape (expandAxis a.shape.length axis0) ++ _ ++
      pySliceFrom a.shape (expandAxis a.shape.length axis0) = _
    rw [pySliceTo_nonneg _ h0, pySliceFrom_nonneg _ h0]
  · intro out
    show a.fn (pySliceTo out (expandAxis a.shape.length axis0) ++
      pySliceFrom out (expandAxis a.shape.length axis0 + (n : Int))) = _
    rw [pySliceTo_nonneg _ h0, pySliceFrom_nonneg _ (by omega)]
    have hsum : (expandAxis a.shape.length axis0 + (n : Int)).toNat =
        (expandAxis a.shape.length axis0).toNat + n := by omega
    rw [hsum]
  · intro b hb
    constructor
    · show pySliceTo b.shape (expandAxis b.shape.length 1) ++ _ ++
        pySliceFrom b.shape (expandAxis b.shape.length 1) = _
      rw [hb]
      decide
    · intro i j
      rfl

/-- Witness for C9 at the spec's concrete instance. -/
theorem expand_dims_spec_witness :
    (expand_dims (idTensor [4, 5]) 1 2).shape = [4, 1, 1, 5] ∧
    (expand_dims (idTensor [4, 5]) 1 2).fn [3, 0, 0, 4] =
      (idTensor [4, 5]).fn [3, 4] :=
  have h := expand_dims_spec (idTensor [4, 5]) 1 2 (by decide) (by decide)
    (by decide)
  ⟨(h.2.2 (idTensor [4, 5]) rfl).1, (h.2.2 (idTensor [4, 5]) rfl).2 3 4⟩

end Topi

namespace Topi

/-! ### The coordinate vector built by transpose -/

theorem pyGet_ok_getD {α : Type} {l : List α} (d : α) {i : Int} (h0 : 0 ≤ i)
    (h2 : i.toNat < l.length) : pyGet l i = .ok (l.getD i.toNat d) := by
  rw [pyGet_ok h0 h2]
  congr 1
  rw [List.getD_eq_getElem _ _ h2, List.get_eq_getElem]

theorem foldl_pySet_length : ∀ (ps : List (Int × Int)) (init : List Int),
    (ps.foldl (fun idx p => pySet idx p.1 p.2) init).length = init.length
  | [], _ => rfl
  | p :: ps, init => by
    rw [List.foldl_cons, foldl_pySet_length ps, pySet_length]

theorem transposeIdx_length (axes indices : List Int) :
    (transposeIdx axes indices).length = axes.length := by
  rw [transposeIdx, foldl_pySet_length, List.length_replicate]

theorem foldl_pySet_getD_not_mem :
    ∀ (ps : List (Int × Int)) (init : List Int) (j : Nat),
    (∀ p ∈ ps, pyIdx init.length p.1 ≠ (j : Int)) →
    (ps.foldl (fun idx p => pySet idx p.1 p.2) init).getD j 0 = init.getD j 0
  | [], _, _, _ => rfl
  | (x, v) :: ps, init, j, h => by
    rw [List.foldl_cons,
      foldl_pySet_getD_not_mem ps _ j
        (fun p hp => by
          rw [pySet_length]
          exact h p (List.mem_cons_of_mem _ hp))]
    exact pySet_getD_ne v 0 (h (x, v) (List.mem_cons_self _ _))

theorem foldl_pySet_getD_set :
    ∀ (ps : List (Int × Int)) (init : List Int),
    (ps.map Prod.fst).Nodup →
    (∀ p ∈ ps, 0 ≤ p.1 ∧ p.1 < init.length) →
    ∀ (x v : Int), (x, v) ∈ ps →
    (ps.foldl (fun idx p => pySet idx p.1 p.2) init).getD x.toNat 0 = v
  | [], _, _, _, _, _, h => absurd h (List.not_mem_nil _)
  | (y, w) :: ps, init, hnd, hrange, x, v, hmem => by
    rw [List.foldl_cons]
    rcases List.mem_cons.mp hmem with heq | htail
    · injection heq with h1 h2
      subst h1
      subst h2
      have hr := hrange (x, v) (List.mem_cons_self _ _)
      have hx0 : 0 ≤ x := hr.1
      have hnm : x ∉ ps.map Prod.fst := (List.nodup_cons.mp hnd).1
      rw [foldl_pySet_getD_not_mem ps _ x.toNat
        (fun p hp => by
          have hpr := hrange p (List.mem_cons_of_mem _ hp)
          rw [pySet_length, pyIdx_nonneg hpr.1]
          have hxp : p.1 ≠ x :=
            fun hc => hnm (hc ▸ List.mem_map_of_mem Prod.fst hp)
          omega)]
      exact pySet_getD_self v 0 hx0 (by omega)
    · exact foldl_pySet_getD_set ps (pySet init y w) (List.nodup_cons.mp hnd).2
        (fun p hp => by
          rw [pySet_length]
          exact hrange p (List.mem_cons_of_mem _ hp)) x v htail

theorem transposeIdx_getD (axes indices : List Int) (hnd : axes.Nodup)
    (hrange : ∀ x ∈ axes, 0 ≤ x ∧ x < (axes.length : Int))
    (hlen : indices.length = axes.length)
    {i : Nat} (hi : i < axes.length) :
    (transposeIdx axes indices).getD (axes.getD i 0).toNat 0 =
      indices.getD i 0 := by
  rw [transposeIdx]
  apply foldl_pySet_getD_set (axes.zip indices) _ ?_ ?_ _ _ ?_
  · rw [List.map_fst_zip _ _ (by omega)]
    exact hnd
  · intro p hp
    have := (List.of_mem_zip hp).1
    have hr := hrange _ this
    simpa [List.length_replicate] using hr
  · have hzl : i < (axes.zip indices).length := by
      rw [List.length_zip]
      omega
    have : (axes.zip indices)[i] = (axes[i], indices[i]) := List.getElem_zip
    rw [List.getD_eq_getElem _ _ hi, List.getD_eq_getElem _ _ (by omega)]
    rw [← this]
    exact List.getElem_mem hzl

end Topi

namespace Topi

/-! ### Default axes of transpose, and C8 -/

theorem ext_getD {l₁ l₂ : List Int} (hlen : l₁.length = l₂.length)
    (h : ∀ i : Nat, i < l₁.length → l₁.getD i 0 = l₂.getD i 0) : l₁ = l₂ := by
  apply List.ext_getElem hlen
  intro i h1 h2
  have hh := h i h1
  rwa [List.getD_eq_getElem _ _ h1, List.getD_eq_getElem _ _ h2] at hh

theorem getD_map_in {g : Int → Int} {L : List Int} {i : Nat} (h : i < L.length) :
    (L.map g).getD i 0 = g (L.getD i 0) := by
  rw [List.getD_eq_getElem _ _ (by simpa using h), List.getElem_map,
    List.getD_eq_getElem _ _ h]

theorem getD_reverse_in {L : List Int} {i : Nat} (h : i < L.length) :
    L.reverse.getD i 0 = L.getD (L.length - 1 - i) 0 := by
  rw [List.getD_eq_getElem _ _ (by simpa using h), List.getElem_reverse,
    List.getD_eq_getElem _ _ (by omega)]

theorem revRange_length (r : Nat) :
    ((List.range r).reverse.map Int.ofNat).length = r := by simp

theorem revRange_getD {r i : Nat} (hi : i < r) :
    ((List.range r).reverse.map Int.ofNat).getD i 0 = ((r - 1 - i : Nat) : Int) := by
  rw [List.getD_eq_getElem _ _ (by simp [hi])]
  rw [List.getElem_map, List.getElem_reverse, List.getElem_range]
  simp

theorem revRange_nodup (r : Nat) :
    ((List.range r).reverse.map Int.ofNat).Nodup := by
  apply List.Nodup.map
  · intro a b hab
    have hab2 : (a : Int) = (b : Int) := hab
    omega
  · exact List.nodup_reverse.mpr (List.nodup_range r)

theorem revRange_mem {r : Nat} {x : Int} :
    x ∈ (List.range r).reverse.map Int.ofNat ↔ 0 ≤ x ∧ x < r := by
  simp only [List.mem_map, List.mem_reverse, List.mem_range]
  constructor
  · rintro ⟨k, hk, rfl⟩
    have h1 : ((k : Nat) : Int) = Int.ofNat k := rfl
    omega
  · intro ⟨h0, h1⟩
    refine ⟨x.toNat, by omega, ?_⟩
    have h2 : ((x.toNat : Nat) : Int) = Int.ofNat x.toNat := rfl
    omega

theorem transposeIdx_revRange {r : Nat} {indices : List Int}
    (hlen : indices.length = r) :
    transposeIdx ((List.range r).reverse.map Int.ofNat) indices =
      indices.reverse := by
  apply ext_getD
  · rw [transposeIdx_length, revRange_length, List.length_reverse, hlen]
  · intro j hj
    have hjr : j < r := by
      rwa [transposeIdx_length, revRange_length] at hj
    have hi : r - 1 - j < r := by omega
    have hax : ((List.range r).reverse.map Int.ofNat).getD (r - 1 - j) 0 =
        ((j : Nat) : Int) := by
      rw [revRange_getD hi]
      congr 1
      omega
    have hkey := transposeIdx_getD
      ((List.range r).reverse.map Int.ofNat) indices (revRange_nodup r)
      (fun x hx => by
        have hm := revRange_mem.mp hx
        rw [revRange_length]
        exact ⟨hm.1, hm.2⟩)
      (by rw [revRange_length, hlen])
      (i := r - 1 - j) (by rw [revRange_length]; exact hi)
    rw [hax] at hkey
    simp only [Int.toNat_ofNat] at hkey
    have hrev2 : indices.reverse.getD j 0 = indices.getD (r - 1 - j) 0 := by
      rw [getD_reverse_in (show j < indices.length by omega)]
      congr 1
      omega
    rw [hkey, hrev2]

theorem transpose_default_ok {α : Type} (a : Tensor α) :
    transpose a none = .ok ⟨a.shape.reverse,
      fun indices =>
        a.fn (transposeIdx
          ((List.range a.shape.length).reverse.map Int.ofNat) indices)⟩ := by
  have hm : mapE (pyGet a.shape)
      ((List.range a.shape.length).reverse.map Int.ofNat) =
      .ok (((List.range a.shape.length).reverse.map Int.ofNat).map
        (fun x => a.shape.getD x.toNat 0)) :=
    mapE_ok_of_forall (fun x hx => by
      have hr := revRange_mem.mp hx
      exact pyGet_ok_getD 0 hr.1 (by omega))
  have hrev : ((List.range a.shape.length).reverse.map Int.ofNat).map
      (fun x => a.shape.getD x.toNat 0) = a.shape.reverse := by
    apply ext_getD
    · simp
    · intro i hi
      have hir : i < a.shape.length := by simpa using hi
      rw [getD_map_in (by simpa using hir), revRange_getD hir,
        getD_reverse_in hir]
      simp
  rw [transpose]
  show mapE (pyGet a.shape) ((List.range a.shape.length).reverse.map Int.ofNat)
      >>= _ = _
  rw [hm]
  show Except.ok _ = _
  rw [hrev]
  rfl

/-- C8: `transpose(transpose(a))` with default axes (full reversal applied
twice) succeeds and reproduces `a`'s shape and its value at every
coordinate of `a`. -/
theorem transpose_involution {α : Type} (a : Tensor α) :
    ∃ t u : Tensor α, transpose a none = .ok t ∧ transpose t none = .ok u ∧
      u.shape = a.shape ∧
      ∀ out : List Int, inBounds out a.shape → u.fn out = a.fn out := by
  refine ⟨_, _, transpose_default_ok a, transpose_default_ok _, ?_, ?_⟩
  · show (a.shape.reverse).reverse = a.shape
    exact List.reverse_reverse _
  · intro out hout
    have hlen : out.length = a.shape.length := inBounds_length hout
    show a.fn (transposeIdx ((List.range a.shape.length).reverse.map Int.ofNat)
      (transposeIdx ((List.range (a.shape.reverse).length).reverse.map
        Int.ofNat) out)) = a.fn out
    rw [transposeIdx_revRange (r := (a.shape.reverse).length)
      (by simpa using hlen)]
    rw [transposeIdx_revRange (r := a.shape.length) (by simpa using hlen)]
    rw [List.reverse_reverse]

/-- Witness for C8 on a concrete tensor and coordinate. -/
theorem transpose_involution_witness :
    ∃ t u : Tensor (List Int), transpose (idTensor [2, 3]) none = .ok t ∧
      transpose t none = .ok u ∧
      u.fn [1, 2] = (idTensor [2, 3]).fn [1, 2] := by
  obtain ⟨t, u, h1, h2, _, h4⟩ := transpose_involution (idTensor [2, 3])
  exact ⟨t, u, h1, h2, h4 [1, 2] (by decide)⟩

end Topi

namespace Topi

/-! ### C10: transpose with a non-permutation axes argument -/

theorem exceptBind_ok {ε α β : Type} (a : α) (f : α → Except ε β) :
    (Except.ok a >>= f) = f a := rfl

theorem exceptBind_err {ε α β : Type} (e : ε) (f : α → Except ε β) :
    ((Except.error e : Except ε α) >>= f) = .error e := rfl

/-- C10 (amended): `transpose` does not validate `axes` and does not fail
on a repeated in-range axis: for any rank-2 tensor and `axes = [0,0]` it
returns a descriptor whose input coordinate gets position 0 overwritten
twice (last write wins) while position 1 keeps the initial placeholder 1,
so output coordinate `[x,y]` silently reads `a` at `[y,1]`. -/
theorem transpose_nonperm_silent {α : Type} (a : Tensor α) (u v : Int)
    (h : a.shape = [u, v]) :
    ∃ t : Tensor α, transpose a (some [0, 0]) = .ok t ∧
      t.shape = [u, u] ∧
      ∀ x y : Int, t.fn [x, y] = a.fn [y, 1] := by
  obtain ⟨s, f⟩ := a
  have hs : s = [u, v] := h
  subst hs
  exact ⟨_, rfl, rfl, fun x y => rfl⟩

/-- Witness for C10's amended theorem on a concrete tensor. -/
theorem transpose_nonperm_silent_witness :
    ∃ t : Tensor (List Int),
      transpose (idTensor [2, 3]) (some [0, 0]) = .ok t ∧
      t.shape = [2, 2] ∧
      ∀ x y : Int, t.fn [x, y] = (idTensor [2, 3]).fn [y, 1] :=
  transpose_nonperm_silent (idTensor [2, 3]) 2 3 rfl

/-- C10 counterexample: with repeated axes `[0,0]` on a concrete rank-2
tensor, `transpose` returns a descriptor instead of failing, and that
descriptor's value at output coordinate `[0,0]` is the input's value at
`[0,1]`, not the input's value at the corresponding permuted coordinate
(the claim asserts the call fails loudly; it does not). -/
theorem transpose_nonperm_counterexample :
    (transpose (idTensor [2, 3]) (some [0, 0])).isOk = true ∧
    (transpose (idTensor [2, 3]) (some [0, 0])).map (fun t => t.fn [0, 0]) =
      .ok [0, 1] ∧
    (idTensor [2, 3]).fn [0, 0] = [0, 0] :=
  ⟨rfl, rfl, rfl⟩

end Topi

namespace Topi

/-! ### Evaluating concatenate's graph construction -/

theorem exceptPure_eq_ok {ε α : Type} (a : α) :
    (pure a : Except ε α) = .ok a := rfl

/-- With a valid (normalized) axis for every input, `concatenate` returns
the descriptor with the first input's shape around the axis, the summed
axis size at the axis, and the cascaded-select coordinate function. -/
theorem concatenate_ok {α : Type} (t0 : Tensor α) (rest : List (Tensor α))
    (axis0 ax : Int) (hax : ax = normAxis t0.shape.length axis0)
    (h0 : 0 ≤ ax) (h1 : ax < (t0.shape.length : Int))
    (hall : ∀ t ∈ rest, ax < (t.shape.length : Int)) :
    concatenate (t0 :: rest) axis0 = .ok
      ⟨t0.shape.take ax.toNat ++
        [((t0 :: rest).map (fun t => t.shape.getD ax.toNat 0)).sum] ++
        t0.shape.drop (ax.toNat + 1),
       fun indices =>
        ((((t0 :: rest).map (fun t => t.shape.getD ax.toNat 0)).zip rest).foldl
          (concatStep fun ind => pySliceTo indices ax ++ [ind] ++
            pySliceFrom indices (ax + 1))
          (pyGetD indices ax 0, t0.fn indices)).2⟩ := by
  subst hax
  have hget0 : pyGet (t0 :: rest) 0 = .ok t0 := pyGet_ok (by omega) (by simp)
  have hsizes : mapE (fun t => pyGet t.shape (normAxis t0.shape.length axis0))
      (t0 :: rest) =
      .ok ((t0 :: rest).map
        (fun t => t.shape.getD (normAxis t0.shape.length axis0).toNat 0)) := by
    apply mapE_ok_of_forall
    intro t ht
    have hlt : normAxis t0.shape.length axis0 < (t.shape.length : Int) := by
      rcases List.mem_cons.mp ht with rfl | htail
      · exact h1
      · exact hall t htail
    exact pyGet_ok_getD 0 h0 (by omega)
  have hpre : mapE (pyGet t0.shape)
      (pyRange 0 (normAxis t0.shape.length axis0)) =
      .ok (t0.shape.take (normAxis t0.shape.length axis0).toNat) :=
    mapE_pyGet_range_zero _ (by omega)
  have hpost : mapE (pyGet t0.shape)
      (pyRange (normAxis t0.shape.length axis0 + 1) t0.shape.length) =
      .ok (t0.shape.drop ((normAxis t0.shape.length axis0).toNat + 1)) := by
    have hfrom := mapE_pyGet_range_from t0.shape
      (a := normAxis t0.shape.length axis0 + 1) (by omega) (by omega)
    rw [hfrom]
    have : (normAxis t0.shape.length axis0 + 1).toNat =
        (normAxis t0.shape.length axis0).toNat + 1 := by omega
    rw [this]
  simp only [concatenate, hget0, exceptBind_ok]
  rw [if_pos h1]
  simp only [hsizes, exceptBind_ok, hpre, hpost, exceptPure_eq_ok]
  rfl

end Topi

namespace Topi

/-! ### C4: concatenate does not check non-axis shape agreement -/

/-- C4 (amended): `concatenate` performs no shape-agreement validation on
the non-concatenation axes: whenever the normalized axis is valid for
every input's rank, the call returns a descriptor whose off-axis sizes
come from the first input, even when the inputs disagree away from the
concatenation axis; no shape-mismatch error is raised. -/
theorem concatenate_no_mismatch_check {α : Type} (t0 : Tensor α)
    (rest : List (Tensor α)) (axis0 : Int)
    (h0 : 0 ≤ normAxis t0.shape.length axis0)
    (h1 : normAxis t0.shape.length axis0 < (t0.shape.length : Int))
    (hall : ∀ t ∈ rest, normAxis t0.shape.length axis0 < (t.shape.length : Int)) :
    ∃ t : Tensor α, concatenate (t0 :: rest) axis0 = .ok t ∧
      t.shape = t0.shape.take (normAxis t0.shape.length axis0).toNat ++
        [((t0 :: rest).map
          (fun u => u.shape.getD (normAxis t0.shape.length axis0).toNat 0)).sum] ++
        t0.shape.drop ((normAxis t0.shape.length axis0).toNat + 1) :=
  ⟨_, concatenate_ok t0 rest axis0 _ rfl h0 h1 hall, rfl⟩

/-- Witness for C4's amended theorem: inputs (3,4) and (5,6) disagree on
axis 0 but concatenate on axis 1 still builds a descriptor. -/
theorem concatenate_no_mismatch_check_witness :
    ∃ t : Tensor (List Int),
      concatenate [idTensor [3, 4], idTensor [5, 6]] 1 = .ok t ∧
      t.shape = (idTensor [3, 4]).shape.take
          (normAxis (idTensor [3, 4]).shape.length 1).toNat ++
        [(([idTensor [3, 4], idTensor [5, 6]]).map
          (fun u => u.shape.getD
            (normAxis (idTensor [3, 4]).shape.length 1).toNat 0)).sum] ++
        (idTensor [3, 4]).shape.drop
          ((normAxis (idTensor [3, 4]).shape.length 1).toNat + 1) :=
  concatenate_no_mismatch_check (idTensor [3, 4]) [idTensor [5, 6]] 1
    (by decide) (by decide) (by decide)

/-- C4 counterexample: (3,4) and (5,6) disagree on the non-concatenation
axis 0, yet `concatenate` on axis 1 returns a descriptor of shape [3,10]
rather than failing with a shape-mismatch error. -/
theorem concatenate_mismatch_counterexample :
    (concatenate [idTensor [3, 4], idTensor [5, 6]] 1).isOk = true ∧
    (concatenate [idTensor [3, 4], idTensor [5, 6]] 1).map
      (fun t => t.shape) = .ok [3, 10] :=
  ⟨rfl, rfl⟩

/-! ### C6: axis range validation -/

/-- C6 (amended): an axis `≥ rank` is rejected synchronously by both
operators (`concatenate` through its assertion, `split` through the
out-of-range shape access), but an axis `< -rank` is not rejected when it
is `≥ -2*rank`: normalization leaves a negative index that Python's
negative indexing accepts, and descriptors are built (shown for rank-2
inputs with axis `-3`). -/
theorem axis_validation_spec {α : Type} :
    (∀ (t0 : Tensor α) (rest : List (Tensor α)) (axis0 : Int),
      (t0.shape.length : Int) ≤ axis0 →
      concatenate (t0 :: rest) axis0 = .error .assertionError) ∧
    (∀ (ary : Tensor α) (ios : IndicesOrSections) (axis0 : Int),
      (ary.shape.length : Int) ≤ axis0 →
      split ary ios axis0 = .error .indexError) ∧
    (∀ (a : Tensor α) (u v : Int), a.shape = [u, v] →
      ∃ t, concatenate [a] (-3) = .ok t ∧ t.shape = [v, u, v]) ∧
    (∀ a : Tensor α, a.shape = [2, 3] →
      ∃ parts, split a (.int 3) (-3) = .ok parts ∧ parts.length = 3) := by
  refine ⟨?_, ?_, ?_, ?_⟩
  · intro t0 rest axis0 hge
    have hget0 : pyGet (t0 :: rest) 0 = .ok t0 := pyGet_ok (by omega) (by simp)
    have hc : ¬ (normAxis t0.shape.length axis0 < (t0.shape.length : Int)) := by
      rw [normAxis_nonneg_id (by omega)]
      omega
    simp only [concatenate, hget0, exceptBind_ok]
    rw [if_neg hc]
    rfl
  · intro ary ios axis0 hge
    have hpg : pyGet ary.shape (normAxis ary.shape.length axis0) =
        .error .indexError := by
      rw [normAxis_nonneg_id (by omega)]
      exact pyGet_err (by omega)
    simp only [split, hpg, exceptBind_err]
  · intro a u v h
    obtain ⟨s, f⟩ := a
    have hs : s = [u, v] := h
    subst hs
    refine ⟨_, rfl, ?_⟩
    norm_num [pyIdx, normAxis]
  · intro a h
    obtain ⟨s, f⟩ := a
    have hs : s = [2, 3] := h
    subst hs
    exact ⟨_, rfl, rfl⟩

/-- Witness for C6's amended theorem at concrete inputs. -/
theorem axis_validation_spec_witness :
    concatenate [idTensor [2, 3]] 5 = .error .assertionError ∧
    split (idTensor [2, 3]) (.int 3) 2 = .error .indexError ∧
    (∃ t, concatenate [idTensor [2, 3]] (-3) = .ok t ∧ t.shape = [3, 2, 3]) ∧
    (∃ parts, split (idTensor [2, 3]) (.int 3) (-3) = .ok parts ∧
      parts.length = 3) :=
  ⟨(axis_validation_spec).1 (idTensor [2, 3]) [] 5 (by decide),
   (axis_validation_spec).2.1 (idTensor [2, 3]) (.int 3) 2 (by decide),
   (axis_validation_spec).2.2.1 (idTensor [2, 3]) 2 3 rfl,
   (axis_validation_spec).2.2.2 (idTensor [2, 3]) rfl⟩

/-- C6 counterexample: axis `-3` on rank-2 inputs lies below `-rank`, yet
both `concatenate` and `split` accept it and build descriptors, instead
of rejecting it as the claim states. -/
theorem axis_validation_counterexample :
    (concatenate [idTensor [2, 3]] (-3)).isOk = true ∧
    (split (idTensor [2, 3]) (.int 3) (-3)).isOk = true :=
  ⟨rfl, rfl⟩

end Topi

namespace Topi

/-! ### C5: split specification validation -/

/-- C5 (amended): with a valid normalized axis, `split` rejects
synchronously, before any output tensor is built: a boundary sequence
that is not sorted in non-decreasing order (e.g. `(5,3)`); a positive
count that does not divide the axis size; a non-positive count; and a
specification of any other type (NotImplementedError).  However the
sortedness check is only non-decreasing: a sequence with duplicates (not
strictly ascending) is accepted. -/
theorem split_validation_spec {α : Type} :
    (∀ (ary : Tensor α) (l : List Int) (axis0 : Int),
      0 ≤ normAxis ary.shape.length axis0 →
      normAxis ary.shape.length axis0 < (ary.shape.length : Int) →
      isSorted l = false →
      split ary (.sections l) axis0 = .error .assertionError) ∧
    (∀ (ary : Tensor α) (n axis0 : Int),
      0 ≤ normAxis ary.shape.length axis0 →
      normAxis ary.shape.length axis0 < (ary.shape.length : Int) →
      n ≤ 0 →
      split ary (.int n) axis0 = .error .assertionError) ∧
    (∀ (ary : Tensor α) (n axis0 : Int),
      0 ≤ normAxis ary.shape.length axis0 →
      normAxis ary.shape.length axis0 < (ary.shape.length : Int) →
      0 < n →
      ¬ (ary.shape.getD (normAxis ary.shape.length axis0).toNat 0 % n = 0) →
      split ary (.int n) axis0 = .error .assertionError) ∧
    (∀ (ary : Tensor α) (axis0 : Int),
      0 ≤ normAxis ary.shape.length axis0 →
      normAxis ary.shape.length axis0 < (ary.shape.length : Int) →
      split ary .other axis0 = .error .notImplementedError) := by
  have hpg : ∀ (ary : Tensor α) (axis0 : Int),
      0 ≤ normAxis ary.shape.length axis0 →
      normAxis ary.shape.length axis0 < (ary.shape.length : Int) →
      pyGet ary.shape (normAxis ary.shape.length axis0) =
        .ok (ary.shape.getD (normAxis ary.shape.length axis0).toNat 0) :=
    fun ary axis0 h0 h1 => pyGet_ok_getD 0 h0 (by omega)
  refine ⟨?_, ?_, ?_, ?_⟩
  · intro ary l axis0 h0 h1 hns
    simp only [split, splitBegins, hpg ary axis0 h0 h1, exceptBind_ok]
    rw [if_neg (by simp [hns])]
    rfl
  · intro ary n axis0 h0 h1 hn
    simp only [split, splitBegins, hpg ary axis0 h0 h1, exceptBind_ok]
    rw [if_neg (by omega)]
    rfl
  · intro ary n axis0 h0 h1 hn hdvd
    simp only [split, splitBegins, hpg ary axis0 h0 h1, exceptBind_ok]
    rw [if_pos hn, if_neg hdvd]
    rfl
  · intro ary axis0 h0 h1
    simp only [split, splitBegins, hpg ary axis0 h0 h1, exceptBind_ok]
    rfl

/-- Witness for C5's amended theorem at the spec's concrete instances. -/
theorem split_validation_spec_witness :
    split (idTensor [6]) (.sections [5, 3]) 0 = .error .assertionError ∧
    split (idTensor [10]) (.int 0) 0 = .error .assertionError ∧
    split (idTensor [10]) (.int 3) 0 = .error .assertionError ∧
    split (idTensor [10]) .other 0 = .error .notImplementedError :=
  ⟨(split_validation_spec).1 (idTensor [6]) [5, 3] 0 (by decide) (by decide)
    (by decide),
   (split_validation_spec).2.1 (idTensor [10]) 0 0 (by decide) (by decide)
    (by decide),
   (split_validation_spec).2.2.1 (idTensor [10]) 3 0 (by decide) (by decide)
    (by decide) (by decide),
   (split_validation_spec).2.2.2 (idTensor [10]) 0 (by decide) (by decide)⟩

/-- C5 counterexample: the boundary sequence `[3,3]` is not strictly
ascending, yet `split` accepts it (the code only checks non-decreasing
order) and builds three descriptors, of shapes `[3]`, `[0]`, `[3]`. -/
theorem split_sorted_counterexample :
    (split (idTensor [6]) (.sections [3, 3]) 0).isOk = true ∧
    (split (idTensor [6]) (.sections [3, 3]) 0).map
      (fun ps => ps.map (fun p => p.shape)) = .ok [[3], [0], [3]] :=
  ⟨rfl, rfl⟩

end Topi

namespace Topi

/-! ### C3: concatenate partition semantics -/

theorem getD_in_default_irrel {β : Type} {l : List β} {k : Nat}
    (h : k < l.length) (d1 d2 : β) : l.getD k d1 = l.getD k d2 := by
  rw [List.getD_eq_getElem _ _ h, List.getD_eq_getElem _ _ h]

theorem axisSize_nonneg {α : Type} {t : Tensor α}
    (h : ∀ x ∈ t.shape, 0 ≤ x) (ax : Nat) : 0 ≤ axisSize ax t := by
  rw [axisSize]
  rcases Nat.lt_or_ge ax t.shape.length with hlt | hge
  · rw [List.getD_eq_getElem _ _ hlt]
    exact h _ (List.getElem_mem hlt)
  · rw [List.getD_eq_default _ _ hge]

theorem axSumTo_zero {α : Type} (ax : Nat) (l : List (Tensor α)) :
    axSumTo ax l 0 = 0 := rfl

theorem axSumTo_cons_succ {α : Type} (ax : Nat) (t : Tensor α)
    (l : List (Tensor α)) (j : Nat) :
    axSumTo ax (t :: l) (j + 1) = axisSize ax t + axSumTo ax l j := by
  simp [axSumTo, List.take_succ_cons]

theorem axSumTo_nonneg {α : Type} (ax : Nat) (l : List (Tensor α)) (j : Nat)
    (h : ∀ t ∈ l, 0 ≤ axisSize ax t) : 0 ≤ axSumTo ax l j := by
  apply List.sum_nonneg
  intro x hx
  obtain ⟨t, ht, rfl⟩ := List.mem_map.mp hx
  exact h t (List.mem_of_mem_take ht)

theorem take_getD_drop {l : List Int} {n : Nat} (h : n < l.length) :
    l.take n ++ [l.getD n 0] ++ l.drop (n + 1) = l := by
  rw [List.getD_eq_getElem _ _ h]
  rw [show l.take n ++ [l[n]] ++ l.drop (n + 1) =
    l.take n ++ (l[n] :: l.drop (n + 1)) by simp]
  rw [← List.drop_eq_getElem_cons h]
  exact List.take_append_drop n l

theorem concatFold_stays {α : Type} (m : Int → List Int) :
    ∀ (ps : List (Int × Tensor α)) (acc : Int × α),
    acc.1 < 0 → (∀ p ∈ ps, 0 ≤ p.1) →
    (ps.foldl (concatStep m) acc).2 = acc.2
  | [], _, _, _ => rfl
  | (sz, t) :: ps, acc, hneg, hpos => by
    rw [List.foldl_cons]
    have hsz : 0 ≤ sz := hpos (sz, t) (List.mem_cons_self _ _)
    have hstep : concatStep m acc (sz, t) = (acc.1 - sz, acc.2) := by
      simp only [concatStep]
      rw [if_neg (by omega)]
    rw [hstep]
    exact concatFold_stays m ps _ (by simp only; omega)
      (fun p hp => hpos p (List.mem_cons_of_mem _ hp))

/-- The cascaded select built by `concatenate` picks the unique segment:
if the running index starts in segment `j` (bounded by the cumulative
axis sizes around `j`), the fold's final value is input `j` read at the
segment-local index (input `0`'s already-computed value for `j = 0`). -/
theorem concatFold_exact {α : Type} (m : Int → List Int) (ax : Nat) :
    ∀ (rest : List (Tensor α)) (t0 : Tensor α) (ind : Int) (ret : α) (j : Nat),
    (∀ t ∈ t0 :: rest, 0 ≤ axisSize ax t) →
    j ≤ rest.length →
    axSumTo ax (t0 :: rest) j ≤ ind →
    ind < axSumTo ax (t0 :: rest) (j + 1) →
    ((((t0 :: rest).map (axisSize ax)).zip rest).foldl (concatStep m)
      (ind, ret)).2 =
      if j = 0 then ret
      else ((t0 :: rest).getD j t0).fn (m (ind - axSumTo ax (t0 :: rest) j))
  | [], t0, ind, ret, j, hpos, hj, hlow, hhigh => by
    have hj0 : j = 0 := Nat.le_zero.mp hj
    subst hj0
    simp [List.zip_nil_right]
  | t1 :: rest', t0, ind, ret, j, hpos, hj, hlow, hhigh => by
    have hpairs : ((t0 :: t1 :: rest').map (axisSize ax)).zip (t1 :: rest') =
        (axisSize ax t0, t1) ::
          ((t1 :: rest').map (axisSize ax)).zip rest' := rfl
    have hpos' : ∀ t ∈ t1 :: rest', 0 ≤ axisSize ax t :=
      fun t ht => hpos t (List.mem_cons_of_mem _ ht)
    rw [hpairs, List.foldl_cons]
    cases j with
    | zero =>
      have h1 : axSumTo ax (t0 :: t1 :: rest') 1 = axisSize ax t0 := by
        rw [axSumTo_cons_succ, axSumTo_zero, add_zero]
      rw [h1] at hhigh
      have hstep : concatStep m (ind, ret) (axisSize ax t0, t1) =
          (ind - axisSize ax t0, ret) := by
        simp only [concatStep]
        rw [if_neg (by omega)]
      rw [hstep, concatFold_stays m _ _ (by simp only; omega)
        (fun p hp => by
          obtain ⟨t, ht, heq⟩ := List.mem_map.mp (List.of_mem_zip hp).1
          rw [← heq]
          exact hpos' t ht)]
      rw [if_pos rfl]
    | succ k =>
      rw [axSumTo_cons_succ] at hlow
      rw [axSumTo_cons_succ] at hhigh
      have hsumnn : 0 ≤ axSumTo ax (t1 :: rest') k :=
        axSumTo_nonneg ax _ k hpos'
      have hstep : concatStep m (ind, ret) (axisSize ax t0, t1) =
          (ind - axisSize ax t0,
            t1.fn (m (ind - axisSize ax t0))) := by
        simp only [concatStep]
        rw [if_pos (by omega)]
      rw [hstep]
      rw [concatFold_exact m ax rest' t1 (ind - axisSize ax t0)
        (t1.fn (m (ind - axisSize ax t0))) k hpos' (by simpa using hj)
        (by omega) (by omega)]
      cases k with
      | zero =>
        rw [if_pos rfl, if_neg (Nat.succ_ne_zero 0)]
        rw [axSumTo_cons_succ ax t0 (t1 :: rest') 0, axSumTo_zero, add_zero]
        rfl
      | succ u =>
        rw [if_neg (Nat.succ_ne_zero u), if_neg (Nat.succ_ne_zero (u + 1))]
        have hget : (t1 :: rest').getD (u + 1) t1 =
            (t1 :: rest').getD (u + 1) t0 :=
          getD_in_default_irrel (by simpa using hj) t1 t0
        rw [hget]
        show ((t1 :: rest').getD (u + 1) t0).fn _ =
          ((t1 :: rest').getD (u + 1) t0).fn _
        congr 2
        rw [axSumTo_cons_succ ax t0 (t1 :: rest') (u + 1)]
        omega

end Topi

namespace Topi

/-- Evaluation of the coordinate function `concatenate` builds, at an
output coordinate whose axis component lies in segment `j`. -/
theorem concatFn_eval {α : Type} (t0 : Tensor α) (rest : List (Tensor α))
    (ax : Int) (h0 : 0 ≤ ax)
    (hsz : ∀ t ∈ t0 :: rest, 0 ≤ axisSize ax.toNat t)
    (out : List Int) (hlen : ax.toNat < out.length)
    (j : Nat) (hj : j ≤ rest.length)
    (hlow : axSumTo ax.toNat (t0 :: rest) j ≤ out.getD ax.toNat 0)
    (hhigh : out.getD ax.toNat 0 < axSumTo ax.toNat (t0 :: rest) (j + 1)) :
    ((((t0 :: rest).map (fun t => t.shape.getD ax.toNat 0)).zip rest).foldl
      (concatStep fun ind => pySliceTo out ax ++ [ind] ++
        pySliceFrom out (ax + 1))
      (pyGetD out ax 0, t0.fn out)).2 =
      ((t0 :: rest).getD j t0).fn
        (out.take ax.toNat ++
          [out.getD ax.toNat 0 - axSumTo ax.toNat (t0 :: rest) j] ++
          out.drop (ax.toNat + 1)) := by
  have hmapeq : (t0 :: rest).map (fun t => t.shape.getD ax.toNat 0) =
      (t0 :: rest).map (axisSize ax.toNat) := rfl
  rw [hmapeq, pyGetD_in 0 h0 hlen]
  rw [concatFold_exact _ ax.toNat rest t0 _ _ j hsz hj hlow hhigh]
  rw [pySliceTo_nonneg out h0, pySliceFrom_nonneg out (by omega)]
  have hp1 : (ax + 1).toNat = ax.toNat + 1 := by omega
  rw [hp1]
  cases j with
  | zero =>
    rw [if_pos rfl, axSumTo_zero, sub_zero]
    show t0.fn out = t0.fn _
    rw [take_getD_drop hlen]
  | succ k =>
    rw [if_neg (Nat.succ_ne_zero k)]

/-- C3: for a non-empty input list with a valid normalized axis and
non-negative shapes, `concatenate` returns a tensor whose shape is the
first input's shape with the axis size replaced by the sum of all axis
sizes, and whose value at an output coordinate whose axis component lies
in segment `j` (delimited by the cumulative axis sizes) is input `j`
evaluated with the axis component reduced by the cumulative sizes of
inputs `0..j-1`. -/
theorem concatenate_spec {α : Type} (t0 : Tensor α) (rest : List (Tensor α))
    (axis0 ax : Int) (hax : ax = normAxis t0.shape.length axis0)
    (h0 : 0 ≤ ax) (h1 : ax < (t0.shape.length : Int))
    (hall : ∀ t ∈ rest, ax < (t.shape.length : Int))
    (hnn : ∀ t ∈ t0 :: rest, ∀ x ∈ t.shape, 0 ≤ x)
    (out : List Int) (hlen : ax.toNat < out.length)
    (j : Nat) (hj : j < (t0 :: rest).length)
    (hlow : axSumTo ax.toNat (t0 :: rest) j ≤ out.getD ax.toNat 0)
    (hhigh : out.getD ax.toNat 0 < axSumTo ax.toNat (t0 :: rest) (j + 1)) :
    ∃ t : Tensor α, concatenate (t0 :: rest) axis0 = .ok t ∧
      t.shape = t0.shape.set ax.toNat
        ((t0 :: rest).map (axisSize ax.toNat)).sum ∧
      t.fn out = ((t0 :: rest).getD j t0).fn
        (out.take ax.toNat ++
          [out.getD ax.toNat 0 - axSumTo ax.toNat (t0 :: rest) j] ++
          out.drop (ax.toNat + 1)) := by
  have hmapeq : (t0 :: rest).map (fun t => t.shape.getD ax.toNat 0) =
      (t0 :: rest).map (axisSize ax.toNat) := rfl
  have hsz : ∀ t ∈ t0 :: rest, 0 ≤ axisSize ax.toNat t :=
    fun t ht => axisSize_nonneg (hnn t ht) ax.toNat
  refine ⟨_, concatenate_ok t0 rest axis0 ax hax h0 h1 hall, ?_, ?_⟩
  · show t0.shape.take ax.toNat ++ _ ++ t0.shape.drop (ax.toNat + 1) = _
    rw [hmapeq, List.set_eq_take_append_cons_drop, if_pos (by omega)]
    simp
  · exact concatFn_eval t0 rest ax h0 hsz out hlen j
      (by simp only [List.length_cons] at hj; omega) hlow hhigh

/-- Witness for C3 at the spec's concrete instance: shapes (3,4) and
(3,6), axis 1, output coordinate [1,5] lying in segment 1. -/
theorem concatenate_spec_witness :
    ∃ t : Tensor (List Int),
      concatenate [idTensor [3, 4], idTensor [3, 6]] 1 = .ok t ∧
      t.shape = (idTensor [3, 4]).shape.set 1
        (([idTensor [3, 4], idTensor [3, 6]]).map (axisSize 1)).sum ∧
      t.fn [1, 5] = (([idTensor [3, 4], idTensor [3, 6]]).getD 1
        (idTensor [3, 4])).fn
        ([(1 : Int), 5].take 1 ++
          [[(1 : Int), 5].getD 1 0 -
            axSumTo 1 [idTensor [3, 4], idTensor [3, 6]] 1] ++
          [(1 : Int), 5].drop 2) :=
  concatenate_spec (idTensor [3, 4]) [idTensor [3, 6]] 1 1 (by decide)
    (by decide) (by decide) (by decide) (by decide) [1, 5] (by decide) 1
    (by decide) (by decide) (by decide)

end Topi

namespace Topi

/-! ### C7: split then concatenate is the identity on (3,12), axis 1 -/

/-- C7: splitting a `(3,12)` tensor on axis 1 with integer count 3 yields
exactly three `(3,4)` tensors, and concatenating those three outputs
along axis 1 yields a tensor whose value at every coordinate equals the
original tensor's value at that coordinate. -/
theorem split_concat_inverse {α : Type} (ary : Tensor α)
    (h : ary.shape = [3, 12]) :
    ∃ (parts : List (Tensor α)) (t : Tensor α),
      split ary (.int 3) 1 = .ok parts ∧
      parts.length = 3 ∧
      (∀ p ∈ parts, p.shape = [3, 4]) ∧
      concatenate parts 1 = .ok t ∧
      ∀ r c : Int, 0 ≤ r → r < 3 → 0 ≤ c → c < 12 →
        t.fn [r, c] = ary.fn [r, c] := by
  obtain ⟨s, f⟩ := ary
  have hs : s = [3, 12] := h
  subst hs
  have hr1 : (1 : Int) <
      ((splitPart (Tensor.mk [3, 12] f) 1 0 [3, 4]).shape.length : Int) := by
    norm_num [splitPart]
  have hall2 : ∀ t ∈ [splitPart (Tensor.mk [3, 12] f) 1 4 [3, 4],
      splitPart (Tensor.mk [3, 12] f) 1 8 [3, 4]],
      (1 : Int) < (t.shape.length : Int) := by
    intro t ht
    simp only [List.mem_cons, List.not_mem_nil, or_false] at ht
    rcases ht with rfl | rfl <;> norm_num [splitPart]
  have hsz3 : ∀ t ∈ splitPart (Tensor.mk [3, 12] f) 1 0 [3, 4] ::
      [splitPart (Tensor.mk [3, 12] f) 1 4 [3, 4],
       splitPart (Tensor.mk [3, 12] f) 1 8 [3, 4]],
      0 ≤ axisSize (1 : Int).toNat t := by
    intro t ht
    simp only [List.mem_cons, List.not_mem_nil, or_false] at ht
    rcases ht with rfl | rfl | rfl <;> norm_num [splitPart, axisSize]
  refine ⟨[splitPart (Tensor.mk [3, 12] f) 1 0 [3, 4],
    splitPart (Tensor.mk [3, 12] f) 1 4 [3, 4],
    splitPart (Tensor.mk [3, 12] f) 1 8 [3, 4]], _, rfl, rfl, ?_,
    concatenate_ok (splitPart (Tensor.mk [3, 12] f) 1 0 [3, 4])
      [splitPart (Tensor.mk [3, 12] f) 1 4 [3, 4],
       splitPart (Tensor.mk [3, 12] f) 1 8 [3, 4]] 1 1 rfl (by omega)
      hr1 hall2, ?_⟩
  · intro p hp
    simp only [List.mem_cons, List.not_mem_nil, or_false] at hp
    rcases hp with rfl | rfl | rfl <;> rfl
  · intro r c hr1 hr2 hc1 hc2
    show ((((splitPart (Tensor.mk [3, 12] f) 1 0 [3, 4] ::
        [splitPart (Tensor.mk [3, 12] f) 1 4 [3, 4],
         splitPart (Tensor.mk [3, 12] f) 1 8 [3, 4]]).map
        (fun t => t.shape.getD (1 : Int).toNat 0)).zip
        [splitPart (Tensor.mk [3, 12] f) 1 4 [3, 4],
         splitPart (Tensor.mk [3, 12] f) 1 8 [3, 4]]).foldl
      (concatStep fun ind => pySliceTo [r, c] 1 ++ [ind] ++
        pySliceFrom [r, c] (1 + 1))
      (pyGetD [r, c] 1 0,
        (splitPart (Tensor.mk [3, 12] f) 1 0 [3, 4]).fn [r, c])).2 = f [r, c]
    rcases Int.lt_or_le c 4 with hc | hc
    · rw [concatFn_eval (splitPart (Tensor.mk [3, 12] f) 1 0 [3, 4])
        [splitPart (Tensor.mk [3, 12] f) 1 4 [3, 4],
         splitPart (Tensor.mk [3, 12] f) 1 8 [3, 4]] 1 (by omega) hsz3
        [r, c] (by norm_num) 0 (by norm_num)
        (by show (0 : Int) ≤ c; omega) (by show c < (4 : Int); omega)]
      show f [r, c - 0 + 0] = f [r, c]
      have he : c - 0 + 0 = c := by omega
      rw [he]
    · rcases Int.lt_or_le c 8 with hc8 | hc8
      · rw [concatFn_eval (splitPart (Tensor.mk [3, 12] f) 1 0 [3, 4])
          [splitPart (Tensor.mk [3, 12] f) 1 4 [3, 4],
           splitPart (Tensor.mk [3, 12] f) 1 8 [3, 4]] 1 (by omega) hsz3
          [r, c] (by norm_num) 1 (by norm_num)
          (by show (4 : Int) ≤ c; omega) (by show c < (8 : Int); omega)]
        show f [r, c - 4 + 4] = f [r, c]
        have he : c - 4 + 4 = c := by omega
        rw [he]
      · rw [concatFn_eval (splitPart (Tensor.mk [3, 12] f) 1 0 [3, 4])
          [splitPart (Tensor.mk [3, 12] f) 1 4 [3, 4],
           splitPart (Tensor.mk [3, 12] f) 1 8 [3, 4]] 1 (by omega) hsz3
          [r, c] (by norm_num) 2 (by norm_num)
          (by show (8 : Int) ≤ c; omega) (by show c < (12 : Int); omega)]
        show f [r, c - 8 + 8] = f [r, c]
        have he : c - 8 + 8 = c := by omega
        rw [he]

/-- Witness for C7 on a concrete tensor and coordinate. -/
theorem split_concat_inverse_witness :
    ∃ (parts : List (Tensor (List Int))) (t : Tensor (List Int)),
      split (idTensor [3, 12]) (.int 3) 1 = .ok parts ∧
      parts.length = 3 ∧
      (∀ p ∈ parts, p.shape = [3, 4]) ∧
      concatenate parts 1 = .ok t ∧
      t.fn [2, 7] = (idTensor [3, 12]).fn [2, 7] := by
  obtain ⟨parts, t, h1, h2, h3, h4, h5⟩ :=
    split_concat_inverse (idTensor [3, 12]) rfl
  exact ⟨parts, t, h1, h2, h3, h4,
    h5 2 7 (by decide) (by decide) (by decide) (by decide)⟩

end Topi

namespace Topi

/-! ### getD access lemmas and per-operator in-bounds helpers -/

theorem getD_append_left_in {β : Type} {l₁ l₂ : List β} {i : Nat}
    (h : i < l₁.length) (d : β) : (l₁ ++ l₂).getD i d = l₁.getD i d := by
  rw [List.getD_eq_getElem _ _ (by simp; omega), List.getD_eq_getElem _ _ h]
  exact List.getElem_append_left h

theorem getD_append_right_in {β : Type} {l₁ l₂ : List β} {i : Nat}
    (h1 : l₁.length ≤ i) (h2 : i < l₁.length + l₂.length) (d : β) :
    (l₁ ++ l₂).getD i d = l₂.getD (i - l₁.length) d := by
  rw [List.getD_eq_getElem _ _ (by simp; omega),
    List.getD_eq_getElem _ _ (by omega)]
  exact List.getElem_append_right h1

theorem getD_take_in {β : Type} {l : List β} {n i : Nat} (h1 : i < n)
    (h2 : i < l.length) (d : β) : (l.take n).getD i d = l.getD i d := by
  rw [List.getD_eq_getElem _ _ (by simp; omega), List.getD_eq_getElem _ _ h2]
  exact List.getElem_take l

theorem getD_drop_in {β : Type} {l : List β} {n k : Nat}
    (h : n + k < l.length) (d : β) :
    (l.drop n).getD k d = l.getD (n + k) d := by
  rw [List.getD_eq_getElem _ _ (by simp; omega), List.getD_eq_getElem _ _ h]
  rw [List.getElem_drop]

/-- C2, expand_dims part: with the normalized insertion position in
`[0, rank]`, every in-bounds output coordinate of `expand_dims` reads an
in-bounds coordinate of the source. -/
theorem expand_dims_inbounds {α : Type} (a : Tensor α) (axis0 : Int)
    (n : Nat) (h0 : 0 ≤ expandAxis a.shape.length axis0)
    (h1 : expandAxis a.shape.length axis0 ≤ a.shape.length)
    (out : List Int) (hout : inBounds out (expand_dims a axis0 n).shape) :
    ∃ c, inBounds c a.shape ∧ (expand_dims a axis0 n).fn out = a.fn c := by
  have hshape : (expand_dims a axis0 n).shape =
      a.shape.take (expandAxis a.shape.length axis0).toNat ++
        List.replicate n (1 : Int) ++
        a.shape.drop (expandAxis a.shape.length axis0).toNat := by
    show pySliceTo a.shape _ ++ _ ++ pySliceFrom a.shape _ = _
    rw [pySliceTo_nonneg _ h0, pySliceFrom_nonneg _ h0]
  rw [hshape] at hout
  have hlen := inBounds_length hout
  have htail : (expandAxis a.shape.length axis0).toNat ≤ a.shape.length := by
    omega
  have hlentake : (a.shape.take
      (expandAxis a.shape.length axis0).toNat).length =
      (expandAxis a.shape.length axis0).toNat := by
    simp
    omega
  have hlenout : out.length =
      (expandAxis a.shape.length axis0).toNat + n +
        (a.shape.length - (expandAxis a.shape.length axis0).toNat) := by
    simp at hlen
    omega
  refine ⟨out.take (expandAxis a.shape.length axis0).toNat ++
    out.drop ((expandAxis a.shape.length axis0).toNat + n), ?_, ?_⟩
  · have hpre := inBounds_take hout (expandAxis a.shape.length axis0).toNat
    have hsuf := inBounds_drop hout ((expandAxis a.shape.length axis0).toNat + n)
    have htake1 : (a.shape.take (expandAxis a.shape.length axis0).toNat ++
        List.replicate n (1 : Int) ++
        a.shape.drop (expandAxis a.shape.length axis0).toNat).take
          (expandAxis a.shape.length axis0).toNat =
        a.shape.take (expandAxis a.shape.length axis0).toNat := by
      rw [List.append_assoc, List.take_append_eq_append_take, hlentake]
      simp
    have hdrop1 : (a.shape.take (expandAxis a.shape.length axis0).toNat ++
        List.replicate n (1 : Int) ++
        a.shape.drop (expandAxis a.shape.length axis0).toNat).drop
          ((expandAxis a.shape.length axis0).toNat + n) =
        a.shape.drop (expandAxis a.shape.length axis0).toNat := by
      rw [List.drop_append_eq_append_drop]
      have hl2 : (a.shape.take (expandAxis a.shape.length axis0).toNat ++
          List.replicate n (1 : Int)).length =
          (expandAxis a.shape.length axis0).toNat + n := by
        simp
        omega
      rw [List.drop_eq_nil_of_le (by omega), hl2]
      simp
    rw [htake1] at hpre
    rw [hdrop1] at hsuf
    have hcomb := (inBounds_append
      (out.drop ((expandAxis a.shape.length axis0).toNat + n))
      (a.shape.drop (expandAxis a.shape.length axis0).toNat)
      (by simp; omega)).mpr ⟨hpre, hsuf⟩
    rwa [List.take_append_drop] at hcomb
  · show a.fn (pySliceTo out _ ++ pySliceFrom out _) = _
    rw [pySliceTo_nonneg _ h0, pySliceFrom_nonneg _ (by omega)]
    have : (expandAxis a.shape.length axis0 + (n : Int)).toNat =
        (expandAxis a.shape.length axis0).toNat + n := by omega
    rw [this]

end Topi

namespace Topi

theorem range_map_mem {r : Nat} {x : Int} :
    x ∈ (List.range r).map Int.ofNat ↔ 0 ≤ x ∧ x < r := by
  simp only [List.mem_map, List.mem_range]
  constructor
  · rintro ⟨k, hk, rfl⟩
    have h1 : ((k : Nat) : Int) = Int.ofNat k := rfl
    omega
  · intro ⟨h0, h1⟩
    refine ⟨x.toNat, by omega, ?_⟩
    have h2 : ((x.toNat : Nat) : Int) = Int.ofNat x.toNat := rfl
    omega

theorem range_map_nodup (r : Nat) : ((List.range r).map Int.ofNat).Nodup := by
  apply List.Nodup.map
  · intro a b hab
    have hab2 : (a : Int) = (b : Int) := hab
    omega
  · exact List.nodup_range r

/-- C2, transpose part: when the effective axes list is a permutation of
`[0, rank)`, `transpose` succeeds and every in-bounds output coordinate
reads an in-bounds coordinate of the source. -/
theorem transpose_inbounds {α : Type} (a : Tensor α)
    (axes? : Option (List Int))
    (hperm : (transposeAxes a.shape.length axes?).Perm
      ((List.range a.shape.length).map Int.ofNat)) :
    ∃ t, transpose a axes? = .ok t ∧
      ∀ out, inBounds out t.shape →
        ∃ c, inBounds c a.shape ∧ t.fn out = a.fn c := by
  have hlenax : (transposeAxes a.shape.length axes?).length =
      a.shape.length := by
    rw [hperm.length_eq]
    simp
  have hmem : ∀ x : Int, x ∈ transposeAxes a.shape.length axes? ↔
      0 ≤ x ∧ x < a.shape.length :=
    fun x => (hperm.mem_iff).trans range_map_mem
  have hnd : (transposeAxes a.shape.length axes?).Nodup :=
    (hperm.nodup_iff).mpr (range_map_nodup _)
  have hok : mapE (pyGet a.shape) (transposeAxes a.shape.length axes?) =
      .ok ((transposeAxes a.shape.length axes?).map
        (fun x => a.shape.getD x.toNat 0)) :=
    mapE_ok_of_forall (fun x hx => by
      have h := (hmem x).mp hx
      exact pyGet_ok_getD 0 h.1 (by omega))
  refine ⟨⟨(transposeAxes a.shape.length axes?).map
      (fun x => a.shape.getD x.toNat 0),
    fun indices =>
      a.fn (transposeIdx (transposeAxes a.shape.length axes?) indices)⟩,
    ?_, ?_⟩
  · rw [transpose]
    show mapE (pyGet a.shape) (transposeAxes a.shape.length axes?) >>= _ = _
    rw [hok]
    rfl
  · intro out hout
    have hlenout : out.length = (transposeAxes a.shape.length axes?).length := by
      have := inBounds_length hout
      simpa using this
    refine ⟨transposeIdx (transposeAxes a.shape.length axes?) out, ?_, rfl⟩
    apply inBounds_of_getD
    · rw [transposeIdx_length, hlenax]
    · intro j hj
      rw [transposeIdx_length] at hj
      have hjr : j < a.shape.length := by omega
      have hjmem : ((j : Nat) : Int) ∈ transposeAxes a.shape.length axes? :=
        (hmem _).mpr ⟨by omega, by omega⟩
      obtain ⟨i, hi, hiv⟩ := List.mem_iff_getElem.mp hjmem
      have hkey := transposeIdx_getD (transposeAxes a.shape.length axes?) out
        hnd
        (fun x hx => by
          have h := (hmem x).mp hx
          exact ⟨h.1, by rw [hlenax]; exact h.2⟩)
        hlenout (i := i) hi
      rw [List.getD_eq_getElem _ _ hi, hiv] at hkey
      have htn : ((j : Nat) : Int).toNat = j := by omega
      rw [htn] at hkey
      rw [hkey]
      have hbd := inBounds_getD hout (i := i) (by omega)
      have hsh : ((transposeAxes a.shape.length axes?).map
          (fun x => a.shape.getD x.toNat 0)).getD i 0 =
          a.shape.getD j 0 := by
        rw [getD_map_in (by omega), List.getD_eq_getElem _ _ hi, hiv, htn]
      rw [hsh] at hbd
      exact hbd

end Topi

namespace Topi

/-! ### Cumulative-size and shape-decomposition lemmas for C2 -/

theorem axSumTo_length_eq {α : Type} (ax : Nat) (l : List (Tensor α)) :
    axSumTo ax l l.length = (l.map (axisSize ax)).sum := by
  rw [axSumTo, List.take_length]

theorem sum_take_succ_getElem (L : List Int) : ∀ (j : Nat)
    (h : j < L.length), (L.take (j + 1)).sum = (L.take j).sum + L[j] := by
  induction L with
  | nil => intro j h; simp at h
  | cons x xs ih =>
    intro j h
    cases j with
    | zero => simp
    | succ k =>
      have hk : k < xs.length := by simpa using h
      simp only [List.take_succ_cons, List.sum_cons, List.getElem_cons_succ]
      rw [ih k hk]
      ring

theorem axSumTo_succ_getD {α : Type} (ax : Nat) (l : List (Tensor α))
    (j : Nat) (hj : j < l.length) (d : Tensor α) :
    axSumTo ax l (j + 1) = axSumTo ax l j + axisSize ax (l.getD j d) := by
  rw [axSumTo, axSumTo, List.getD_eq_getElem _ _ hj, List.map_take,
    List.map_take, sum_take_succ_getElem _ j (by simpa using hj),
    List.getElem_map]

theorem segment_exists {α : Type} (ax : Nat) :
    ∀ (l : List (Tensor α)), (∀ t ∈ l, 0 ≤ axisSize ax t) →
    ∀ c : Int, 0 ≤ c → c < axSumTo ax l l.length →
    ∃ j, j < l.length ∧ axSumTo ax l j ≤ c ∧ c < axSumTo ax l (j + 1)
  | [], _, c, h0, h1 => by
    rw [show ([] : List (Tensor α)).length = 0 from rfl, axSumTo_zero] at h1
    omega
  | t :: ts, hpos, c, h0, h1 => by
    rcases Int.lt_or_le c (axisSize ax t) with hc | hc
    · exact ⟨0, by simp, by rw [axSumTo_zero]; omega,
        by rw [axSumTo_cons_succ, axSumTo_zero]; omega⟩
    · have h1' : c - axisSize ax t < axSumTo ax ts ts.length := by
        rw [show (t :: ts).length = ts.length + 1 from rfl,
          axSumTo_cons_succ] at h1
        omega
      obtain ⟨j, hj, hl, hh⟩ := segment_exists ax ts
        (fun u hu => hpos u (List.mem_cons_of_mem _ hu))
        (c - axisSize ax t) (by omega) h1'
      refine ⟨j + 1, by simpa using hj, ?_, ?_⟩
      · rw [axSumTo_cons_succ]
        omega
      · rw [axSumTo_cons_succ]
        omega

theorem getD_append_mid (A C : List Int) (x : Int) :
    (A ++ [x] ++ C).getD A.length 0 = x := by
  rw [List.append_assoc,
    getD_append_right_in (le_refl _) (by simp)]
  simp

/-- A shape that agrees with `s0` everywhere except possibly at `ax`
decomposes around `ax`. -/
theorem shape_decomp_of_agree {s0 st : List Int} (ax : Nat)
    (hlen : st.length = s0.length) (hax : ax < s0.length)
    (hagree : ∀ i : Nat, i < s0.length → i ≠ ax →
      st.getD i 0 = s0.getD i 0) :
    st = s0.take ax ++ [st.getD ax 0] ++ s0.drop (ax + 1) := by
  have hlentake : (s0.take ax).length = ax := by
    simp
    omega
  apply ext_getD
  · simp
    omega
  · intro i hi
    have hi' : i < s0.length := by omega
    rcases Nat.lt_trichotomy i ax with hlt | heq | hgt
    · rw [List.append_assoc, getD_append_left_in (by omega),
        getD_take_in hlt hi', hagree i hi' (by omega)]
    · subst heq
      conv_rhs => rw [show s0.take i ++ [st.getD i 0] ++ s0.drop (i + 1) =
        (s0.take i ++ [st.getD i 0] ++ s0.drop (i + 1)) from rfl]
      rw [show (s0.take i ++ [st.getD i 0] ++ s0.drop (i + 1)).getD i 0 =
        (s0.take i ++ [st.getD i 0] ++ s0.drop (i + 1)).getD
          (s0.take i).length 0 by rw [hlentake]]
      rw [getD_append_mid]
    · rw [List.append_assoc, getD_append_right_in (by omega) (by simp; omega)]
      rw [hlentake]
      have hidx : i - ax = (i - ax - 1) + 1 := by omega
      rw [hidx]
      have hcons : ([st.getD ax 0] ++ s0.drop (ax + 1)).getD
          ((i - ax - 1) + 1) 0 = (s0.drop (ax + 1)).getD (i - ax - 1) 0 := rfl
      rw [hcons, getD_drop_in (by omega)]
      have hidx2 : ax + 1 + (i - ax - 1) = i := by omega
      rw [hidx2, hagree i hi' (by omega)]

end Topi

namespace Topi

/-- C2, concatenate part: with a valid normalized axis, equal ranks,
agreement on all non-concatenation axes, and non-negative shapes, every
in-bounds output coordinate of `concatenate` reads an in-bounds
coordinate of one of the inputs. -/
theorem concatenate_inbounds {α : Type} (t0 : Tensor α)
    (rest : List (Tensor α)) (axis0 ax : Int)
    (hax : ax = normAxis t0.shape.length axis0)
    (h0 : 0 ≤ ax) (h1 : ax < (t0.shape.length : Int))
    (hrank : ∀ t ∈ rest, t.shape.length = t0.shape.length)
    (hagree : ∀ t ∈ rest, ∀ i : Nat, i < t0.shape.length → i ≠ ax.toNat →
      t.shape.getD i 0 = t0.shape.getD i 0)
    (hnn : ∀ t ∈ t0 :: rest, ∀ x ∈ t.shape, 0 ≤ x) :
    ∃ tc, concatenate (t0 :: rest) axis0 = .ok tc ∧
      ∀ out, inBounds out tc.shape →
        ∃ t ∈ t0 :: rest, ∃ c, inBounds c t.shape ∧ tc.fn out = t.fn c := by
  have hsz : ∀ t ∈ t0 :: rest, 0 ≤ axisSize ax.toNat t :=
    fun t ht => axisSize_nonneg (hnn t ht) ax.toNat
  have hrankAll : ∀ t ∈ t0 :: rest, t.shape.length = t0.shape.length := by
    intro t ht
    rcases List.mem_cons.mp ht with rfl | htail
    · rfl
    · exact hrank t htail
  have hagreeAll : ∀ t ∈ t0 :: rest, ∀ i : Nat, i < t0.shape.length →
      i ≠ ax.toNat → t.shape.getD i 0 = t0.shape.getD i 0 := by
    intro t ht
    rcases List.mem_cons.mp ht with rfl | htail
    · intro i _ _
      rfl
    · exact hagree t htail
  have hlentake : (t0.shape.take ax.toNat).length = ax.toNat := by
    simp
    omega
  refine ⟨_, concatenate_ok t0 rest axis0 ax hax h0 h1
    (fun t ht => by rw [hrank t ht]; exact h1), ?_⟩
  intro out hout
  have hmapeq : (t0 :: rest).map (fun t => t.shape.getD ax.toNat 0) =
      (t0 :: rest).map (axisSize ax.toNat) := rfl
  rw [hmapeq] at hout
  have hlenout := inBounds_length hout
  have hlenout' : out.length = t0.shape.length := by
    simp at hlenout
    omega
  have htake1 : (t0.shape.take ax.toNat ++
      ([((t0 :: rest).map (axisSize ax.toNat)).sum] ++
        t0.shape.drop (ax.toNat + 1))).take ax.toNat =
      t0.shape.take ax.toNat := by
    rw [List.take_append_eq_append_take, hlentake]
    simp
  have hdrop1 : (t0.shape.take ax.toNat ++
      ([((t0 :: rest).map (axisSize ax.toNat)).sum] ++
        t0.shape.drop (ax.toNat + 1))).drop (ax.toNat + 1) =
      t0.shape.drop (ax.toNat + 1) := by
    rw [List.drop_append_eq_append_drop, List.drop_eq_nil_of_le (by omega),
      hlentake]
    simp
  have hpre := inBounds_take hout ax.toNat
  have hsuf := inBounds_drop hout (ax.toNat + 1)
  rw [List.append_assoc, htake1] at hpre
  rw [List.append_assoc, hdrop1] at hsuf
  have hmid := inBounds_getD hout (i := ax.toNat) (by omega)
  have hmidsh : (t0.shape.take ax.toNat ++
      [((t0 :: rest).map (axisSize ax.toNat)).sum] ++
      t0.shape.drop (ax.toNat + 1)).getD ax.toNat 0 =
      ((t0 :: rest).map (axisSize ax.toNat)).sum := by
    rw [show (t0.shape.take ax.toNat ++
      [((t0 :: rest).map (axisSize ax.toNat)).sum] ++
      t0.shape.drop (ax.toNat + 1)).getD ax.toNat 0 =
      (t0.shape.take ax.toNat ++
      [((t0 :: rest).map (axisSize ax.toNat)).sum] ++
      t0.shape.drop (ax.toNat + 1)).getD (t0.shape.take ax.toNat).length 0
      by rw [hlentake]]
    exact getD_append_mid _ _ _
  rw [hmidsh] at hmid
  obtain ⟨j, hj, hlow, hhigh⟩ := segment_exists ax.toNat (t0 :: rest) hsz
    (out.getD ax.toNat 0) hmid.1
    (by rw [axSumTo_length_eq]; exact hmid.2)
  have hval := concatFn_eval t0 rest ax h0 hsz out (by omega) j
    (by simp only [List.length_cons] at hj; omega) hlow hhigh
  have hjmem : (t0 :: rest).getD j t0 ∈ t0 :: rest := by
    rw [List.getD_eq_getElem _ _ hj]
    exact List.getElem_mem hj
  refine ⟨(t0 :: rest).getD j t0, hjmem,
    out.take ax.toNat ++
      [out.getD ax.toNat 0 - axSumTo ax.toNat (t0 :: rest) j] ++
      out.drop (ax.toNat + 1), ?_, hval⟩
  have hdecomp := shape_decomp_of_agree ax.toNat
    (hrankAll _ hjmem) (by omega) (hagreeAll _ hjmem)
  rw [hdecomp]
  rw [List.append_assoc, List.append_assoc]
  refine (inBounds_append _ _ (by simp; omega)).mpr ⟨hpre, ?_⟩
  refine (inBounds_append _ _ (by simp)).mpr ⟨?_, hsuf⟩
  have hnext := axSumTo_succ_getD ax.toNat (t0 :: rest) j hj t0
  refine ⟨⟨by omega, ?_⟩, trivial⟩
  show out.getD ax.toNat 0 - axSumTo ax.toNat (t0 :: rest) j <
    ((t0 :: rest).getD j t0).shape.getD ax.toNat 0
  have : ((t0 :: rest).getD j t0).shape.getD ax.toNat 0 =
      axisSize ax.toNat ((t0 :: rest).getD j t0) := rfl
  omega

end Topi

namespace Topi

theorem map_zip_range_map {β : Type} (g : Nat → List Int) (B : List Int)
    (F : List Int → Int → β) :
    (((List.range B.length).map g).zip B).map (fun p => F p.1 p.2) =
      (List.range B.length).map (fun i => F (g i) (B.getD i 0)) := by
  apply List.ext_getElem
  · simp [List.length_zip]
  · intro i h1 h2
    have hi : i < B.length := by simpa using h2
    simp [List.getElem_zip, List.getD_eq_getElem _ _ hi,
      List.getElem?_eq_getElem hi]

/-- With a valid (normalized) axis and a successful `begin_ids`
derivation, `split` returns one offset-translated part per begin index,
with the segment's length at the split axis. -/
theorem split_ok {α : Type} (ary : Tensor α) (ios : IndicesOrSections)
    (axis0 ax : Int) (hax : ax = normAxis ary.shape.length axis0)
    (h0 : 0 ≤ ax) (h1 : ax < (ary.shape.length : Int))
    (B : List Int)
    (hB : splitBegins (ary.shape.getD ax.toNat 0) ios = .ok B) :
    split ary ios axis0 = .ok ((List.range B.length).map (fun i =>
      splitPart ary ax (B.getD i 0)
        (ary.shape.take ax.toNat ++
          [if i = B.length - 1 then
            ary.shape.getD ax.toNat 0 - B.getD i 0
          else B.getD (i + 1) 0 - B.getD i 0] ++
          ary.shape.drop (ax.toNat + 1)))) := by
  subst hax
  have hpg : pyGet ary.shape (normAxis ary.shape.length axis0) =
      .ok (ary.shape.getD (normAxis ary.shape.length axis0).toNat 0) :=
    pyGet_ok_getD 0 h0 (by omega)
  have hpre : mapE (pyGet ary.shape)
      (pyRange 0 (normAxis ary.shape.length axis0)) =
      .ok (ary.shape.take (normAxis ary.shape.length axis0).toNat) :=
    mapE_pyGet_range_zero _ (by omega)
  have hpost : mapE (pyGet ary.shape)
      (pyRange (normAxis ary.shape.length axis0 + 1) ary.shape.length) =
      .ok (ary.shape.drop ((normAxis ary.shape.length axis0).toNat + 1)) := by
    have hfrom := mapE_pyGet_range_from ary.shape
      (a := normAxis ary.shape.length axis0 + 1) (by omega) (by omega)
    rw [hfrom]
    have : (normAxis ary.shape.length axis0 + 1).toNat =
        (normAxis ary.shape.length axis0).toNat + 1 := by omega
    rw [this]
  simp only [split, hpg, exceptBind_ok, hB]
  rw [mapE_ok_of_forall (g := fun i =>
      ary.shape.take (normAxis ary.shape.length axis0).toNat ++
        [if i = B.length - 1 then
          ary.shape.getD (normAxis ary.shape.length axis0).toNat 0 -
            B.getD i 0
        else B.getD (i + 1) 0 - B.getD i 0] ++
        ary.shape.drop ((normAxis ary.shape.length axis0).toNat + 1))
    (fun i _ => by simp only [hpre, exceptBind_ok, hpost, exceptPure_eq_ok])]
  rw [exceptBind_ok]
  show Except.ok _ = _
  congr 1
  exact map_zip_range_map _ B
    (fun sh b => splitPart ary (normAxis ary.shape.length axis0) b sh)

/-- Reading through one split part stays inside the source when the part's
begin offset is non-negative and `begin + segment length ≤ axis size`. -/
theorem splitPart_inbounds_core {α : Type} (ary : Tensor α) (ax : Int)
    (h0 : 0 ≤ ax) (h1 : ax.toNat < ary.shape.length)
    (hnn : ∀ x ∈ ary.shape, 0 ≤ x) (b sz : Int) (hb0 : 0 ≤ b)
    (hbsz : b + sz ≤ ary.shape.getD ax.toNat 0) (out : List Int)
    (hout : inBounds out (ary.shape.take ax.toNat ++ [sz] ++
      ary.shape.drop (ax.toNat + 1))) :
    ∃ c, inBounds c ary.shape ∧
      (splitPart ary ax b (ary.shape.take ax.toNat ++ [sz] ++
        ary.shape.drop (ax.toNat + 1))).fn out = ary.fn c := by
  have hlentake : (ary.shape.take ax.toNat).length = ax.toNat := by
    simp
    omega
  have hlenout := inBounds_length hout
  have hlenout' : ax.toNat < out.length := by
    simp at hlenout
    omega
  have htake1 : (ary.shape.take ax.toNat ++ ([sz] ++
      ary.shape.drop (ax.toNat + 1))).take ax.toNat =
      ary.shape.take ax.toNat := by
    rw [List.take_append_eq_append_take, hlentake]
    simp
  have hdrop1 : (ary.shape.take ax.toNat ++ ([sz] ++
      ary.shape.drop (ax.toNat + 1))).drop (ax.toNat + 1) =
      ary.shape.drop (ax.toNat + 1) := by
    rw [List.drop_append_eq_append_drop, List.drop_eq_nil_of_le (by omega),
      hlentake]
    simp
  have hpre := inBounds_take hout ax.toNat
  have hsuf := inBounds_drop hout (ax.toNat + 1)
  rw [List.append_assoc, htake1] at hpre
  rw [List.append_assoc, hdrop1] at hsuf
  have hmid := inBounds_getD hout (i := ax.toNat) (by omega)
  have hmidsh : (ary.shape.take ax.toNat ++ [sz] ++
      ary.shape.drop (ax.toNat + 1)).getD ax.toNat 0 = sz := by
    rw [show (ary.shape.take ax.toNat ++ [sz] ++
      ary.shape.drop (ax.toNat + 1)).getD ax.toNat 0 =
      (ary.shape.take ax.toNat ++ [sz] ++
      ary.shape.drop (ax.toNat + 1)).getD (ary.shape.take ax.toNat).length 0
      by rw [hlentake]]
    exact getD_append_mid _ _ _
  rw [hmidsh] at hmid
  refine ⟨out.take ax.toNat ++ [out.getD ax.toNat 0 + b] ++
    out.drop (ax.toNat + 1), ?_, ?_⟩
  · rw [show ary.shape = ary.shape.take ax.toNat ++
      [ary.shape.getD ax.toNat 0] ++ ary.shape.drop (ax.toNat + 1) from
      (take_getD_drop h1).symm]
    rw [List.append_assoc, List.append_assoc]
    refine (inBounds_append _ _ (by simp; omega)).mpr ⟨hpre, ?_⟩
    refine (inBounds_append _ _ (by simp)).mpr ⟨?_, hsuf⟩
    exact ⟨⟨by omega, by omega⟩, trivial⟩
  · show ary.fn (pySliceTo out ax ++ [pyGetD out ax 0 + b] ++
      pySliceFrom out (ax + 1)) = _
    rw [pySliceTo_nonneg out h0, pySliceFrom_nonneg out (by omega),
      pyGetD_in 0 h0 hlenout']
    have : (ax + 1).toNat = ax.toNat + 1 := by omega
    rw [this]

end Topi

namespace Topi

theorem isSorted_of_chainLt : ∀ {l : List Int},
    List.Chain' (· < ·) l → isSorted l = true
  | [], _ => rfl
  | [_], _ => rfl
  | x :: y :: rest, h => by
    have h1 := List.chain'_cons.mp h
    rw [isSorted]
    simp only [Bool.and_eq_true, decide_eq_true_eq]
    exact ⟨by omega, isSorted_of_chainLt h1.2⟩

theorem intRange_getD (a : Int) : ∀ (n k : Nat), k < n →
    (intRange a n).getD k 0 = a + k
  | 0, k, h => absurd h (Nat.not_lt_zero k)
  | n + 1, 0, _ => by simp [intRange]
  | n + 1, k + 1, h => by
    rw [show intRange a (n + 1) = a :: intRange (a + 1) n from rfl]
    show (intRange (a + 1) n).getD k 0 = a + ((k : Nat) + 1 : Nat)
    rw [intRange_getD (a + 1) n k (by omega)]
    push_cast
    ring

/-- C2, split part (boundary sequences): with a valid normalized axis,
non-negative shapes, strictly ascending boundaries all within
`[0, axis size]`, every in-bounds coordinate of every output of `split`
reads an in-bounds coordinate of the source. -/
theorem split_sections_inbounds {α : Type} (ary : Tensor α) (l : List Int)
    (axis0 ax : Int) (hax : ax = normAxis ary.shape.length axis0)
    (h0 : 0 ≤ ax) (h1 : ax < (ary.shape.length : Int))
    (hnn : ∀ x ∈ ary.shape, 0 ≤ x)
    (hchain : List.Chain' (· < ·) l)
    (hbnd : ∀ b ∈ l, 0 ≤ b ∧ b ≤ ary.shape.getD ax.toNat 0) :
    ∃ parts, split ary (.sections l) axis0 = .ok parts ∧
      ∀ p ∈ parts, ∀ out, inBounds out p.shape →
        ∃ c, inBounds c ary.shape ∧ p.fn out = ary.fn c := by
  have hsrc0 : 0 ≤ ary.shape.getD ax.toNat 0 := by
    rw [List.getD_eq_getElem _ _ (by omega)]
    exact hnn _ (List.getElem_mem (by omega))
  have hB : splitBegins (ary.shape.getD ax.toNat 0) (.sections l) =
      .ok ((0 : Int) :: l) := by
    simp only [splitBegins]
    rw [if_pos (isSorted_of_chainLt hchain)]
    rfl
  refine ⟨_, split_ok ary _ axis0 ax hax h0 h1 ((0 : Int) :: l) hB, ?_⟩
  intro p hp out hout
  obtain ⟨i, him, rfl⟩ := List.mem_map.mp hp
  have hi : i < ((0 : Int) :: l).length := by
    simpa using List.mem_range.mp him
  have hBmem : ∀ k : Nat, k < ((0 : Int) :: l).length →
      0 ≤ ((0 : Int) :: l).getD k 0 ∧
      ((0 : Int) :: l).getD k 0 ≤ ary.shape.getD ax.toNat 0 := by
    intro k hk
    cases k with
    | zero => exact ⟨le_refl 0, hsrc0⟩
    | succ u =>
      have hu : u < l.length := by simpa using hk
      show 0 ≤ l.getD u 0 ∧ l.getD u 0 ≤ _
      rw [List.getD_eq_getElem _ _ hu]
      exact hbnd _ (List.getElem_mem hu)
  apply splitPart_inbounds_core ary ax h0 (by omega) hnn _ _
    (hBmem i hi).1 ?_ out hout
  rcases Nat.decEq i (((0 : Int) :: l).length - 1) with hlast | hlast
  · rw [if_neg hlast]
    have hi1 : i + 1 < ((0 : Int) :: l).length := by omega
    have := (hBmem (i + 1) hi1).2
    omega
  · rw [if_pos hlast]
    omega

/-- C2, split part (integer counts): with a valid normalized axis,
non-negative shapes, and a positive count dividing the axis size, every
in-bounds coordinate of every output of `split` reads an in-bounds
coordinate of the source. -/
theorem split_int_inbounds {α : Type} (ary : Tensor α) (n : Int)
    (axis0 ax : Int) (hax : ax = normAxis ary.shape.length axis0)
    (h0 : 0 ≤ ax) (h1 : ax < (ary.shape.length : Int))
    (hnn : ∀ x ∈ ary.shape, 0 ≤ x) (hn : 0 < n)
    (hdvd : ary.shape.getD ax.toNat 0 % n = 0) :
    ∃ parts, split ary (.int n) axis0 = .ok parts ∧
      ∀ p ∈ parts, ∀ out, inBounds out p.shape →
        ∃ c, inBounds c ary.shape ∧ p.fn out = ary.fn c := by
  have hsrc0 : 0 ≤ ary.shape.getD ax.toNat 0 := by
    rw [List.getD_eq_getElem _ _ (by omega)]
    exact hnn _ (List.getElem_mem (by omega))
  have hseg0 : 0 ≤ ary.shape.getD ax.toNat 0 / n :=
    Int.ediv_nonneg hsrc0 (by omega)
  have hsegn : ary.shape.getD ax.toNat 0 / n * n =
      ary.shape.getD ax.toNat 0 :=
    Int.ediv_mul_cancel (Int.dvd_of_emod_eq_zero hdvd)
  have hB : splitBegins (ary.shape.getD ax.toNat 0) (.int n) =
      .ok ((pyRange 0 n).map
        (fun i => ary.shape.getD ax.toNat 0 / n * i)) := by
    simp only [splitBegins]
    rw [if_pos hn, if_pos hdvd]
    rfl
  have hBlen : ((pyRange 0 n).map
      (fun i => ary.shape.getD ax.toNat 0 / n * i)).length = n.toNat := by
    rw [List.length_map, pyRange, intRange_length]
    omega
  have hBget : ∀ k : Nat, k < n.toNat →
      ((pyRange 0 n).map
        (fun i => ary.shape.getD ax.toNat 0 / n * i)).getD k 0 =
      ary.shape.getD ax.toNat 0 / n * k := by
    intro k hk
    rw [getD_map_in (by rw [pyRange, intRange_length]; omega)]
    rw [pyRange, intRange_getD 0 _ k (by omega)]
    ring_nf
  refine ⟨_, split_ok ary _ axis0 ax hax h0 h1 _ hB, ?_⟩
  intro p hp out hout
  obtain ⟨i, him, rfl⟩ := List.mem_map.mp hp
  have hi : i < n.toNat := by
    have := List.mem_range.mp him
    omega
  have hmul_le : ∀ k : Nat, (k : Int) ≤ n →
      ary.shape.getD ax.toNat 0 / n * k ≤ ary.shape.getD ax.toNat 0 := by
    intro k hk
    calc ary.shape.getD ax.toNat 0 / n * k ≤
        ary.shape.getD ax.toNat 0 / n * n :=
          mul_le_mul_of_nonneg_left hk hseg0
      _ = ary.shape.getD ax.toNat 0 := hsegn
  apply splitPart_inbounds_core ary ax h0 (by omega) hnn _ _
    (by rw [hBget i hi]; positivity) ?_ out hout
  rcases Nat.decEq i (((pyRange 0 n).map
      (fun i => ary.shape.getD ax.toNat 0 / n * i)).length - 1)
    with hlast | hlast
  · rw [if_neg hlast]
    have hi1 : i + 1 < n.toNat := by omega
    rw [hBget i hi, hBget (i + 1) hi1]
    have := hmul_le (i + 1) (by omega)
    omega
  · rw [if_pos hlast]
    omega

end Topi

namespace Topi

/-- C2 (amended): no out-of-bounds reads under valid inputs. For
`expand_dims` (in-range insertion point), `transpose` (axes a permutation
of the ranks), `reshape` (positive source shape, equal element counts),
`concatenate` (valid normalized axis, equal ranks, agreement on all
non-concatenation axes, non-negative shapes) and `split` (valid
normalized axis, non-negative shapes, and boundaries strictly ascending
AND within `[0, axis size]` — the bracketed range condition is the
amendment; or a positive count dividing the axis size), every produced
descriptor's coordinate function, at every coordinate in bounds for the
declared output shape, reads its source tensor at an in-bounds
coordinate. -/
theorem no_out_of_bounds_reads {α : Type} :
    (∀ (a : Tensor α) (axis0 : Int) (n : Nat),
      0 ≤ expandAxis a.shape.length axis0 →
      expandAxis a.shape.length axis0 ≤ (a.shape.length : Int) →
      ∀ out, inBounds out (expand_dims a axis0 n).shape →
        ∃ c, inBounds c a.shape ∧ (expand_dims a axis0 n).fn out = a.fn c) ∧
    (∀ (a : Tensor α) (axes? : Option (List Int)),
      (transposeAxes a.shape.length axes?).Perm
        ((List.range a.shape.length).map Int.ofNat) →
      ∃ t, transpose a axes? = .ok t ∧
        ∀ out, inBounds out t.shape →
          ∃ c, inBounds c a.shape ∧ t.fn out = a.fn c) ∧
    (∀ (a : Tensor α) (newshape : List Int),
      (∀ x ∈ a.shape, 0 < x) → newshape.prod = a.shape.prod →
      ∀ out, inBounds out (reshape a newshape).shape →
        ∃ c, inBounds c a.shape ∧ (reshape a newshape).fn out = a.fn c) ∧
    (∀ (t0 : Tensor α) (rest : List (Tensor α)) (axis0 ax : Int),
      ax = normAxis t0.shape.length axis0 →
      0 ≤ ax → ax < (t0.shape.length : Int) →
      (∀ t ∈ rest, t.shape.length = t0.shape.length) →
      (∀ t ∈ rest, ∀ i : Nat, i < t0.shape.length → i ≠ ax.toNat →
        t.shape.getD i 0 = t0.shape.getD i 0) →
      (∀ t ∈ t0 :: rest, ∀ x ∈ t.shape, 0 ≤ x) →
      ∃ tc, concatenate (t0 :: rest) axis0 = .ok tc ∧
        ∀ out, inBounds out tc.shape →
          ∃ t ∈ t0 :: rest, ∃ c, inBounds c t.shape ∧ tc.fn out = t.fn c) ∧
    (∀ (ary : Tensor α) (l : List Int) (axis0 ax : Int),
      ax = normAxis ary.shape.length axis0 →
      0 ≤ ax → ax < (ary.shape.length : Int) →
      (∀ x ∈ ary.shape, 0 ≤ x) →
      List.Chain' (· < ·) l →
      (∀ b ∈ l, 0 ≤ b ∧ b ≤ ary.shape.getD ax.toNat 0) →
      ∃ parts, split ary (.sections l) axis0 = .ok parts ∧
        ∀ p ∈ parts, ∀ out, inBounds out p.shape →
          ∃ c, inBounds c ary.shape ∧ p.fn out = ary.fn c) ∧
    (∀ (ary : Tensor α) (n : Int) (axis0 ax : Int),
      ax = normAxis ary.shape.length axis0 →
      0 ≤ ax → ax < (ary.shape.length : Int) →
      (∀ x ∈ ary.shape, 0 ≤ x) → 0 < n →
      ary.shape.getD ax.toNat 0 % n = 0 →
      ∃ parts, split ary (.int n) axis0 = .ok parts ∧
        ∀ p ∈ parts, ∀ out, inBounds out p.shape →
          ∃ c, inBounds c ary.shape ∧ p.fn out = ary.fn c) :=
  ⟨expand_dims_inbounds,
   transpose_inbounds,
   fun a newshape hpos hprod out hout => by
     refine ⟨unravel_index (ravel_index out newshape) a.shape, ?_, rfl⟩
     have h := ravel_bounds (c := out) (s := newshape) hout
     rw [hprod] at h
     exact unravel_bounds a.shape hpos _ h.1 h.2,
   concatenate_inbounds,
   split_sections_inbounds,
   split_int_inbounds⟩

/-- Witness for C2: the expand_dims conjunct at the concrete input
`expand_dims (idTensor [4,5]) 1 2` and output coordinate `[1,0,0,2]`
produces an in-bounds source read. -/
theorem no_out_of_bounds_reads_witness :
    ∃ c, inBounds c (idTensor [4, 5]).shape ∧
      (expand_dims (idTensor [4, 5]) 1 2).fn [1, 0, 0, 2] =
        (idTensor [4, 5]).fn c :=
  (no_out_of_bounds_reads (α := List Int)).1 (idTensor [4, 5]) 1 2
    (by decide) (by decide) [1, 0, 0, 2] (by decide)

/-- C2 counterexample to the unamended claim: the boundary sequence `(7)`
is strictly ascending, and `split` of a tensor of shape `(5,)` with it on
axis 0 succeeds, returning parts of declared shapes `[7]` and `[-2]`; the
first part's coordinate function at `[6]` — in bounds for its declared
shape `[7]` — reads source coordinate `[6]`, which is out of bounds for
shape `[5]`: an out-of-bounds read is constructible. -/
theorem split_out_of_bounds_counterexample :
    List.Chain' (· < ·) [(7 : Int)] ∧
    (split (idTensor [5]) (.sections [7]) 0).map
        (fun ps => ps.map (fun p => p.shape)) = .ok [[7], [-2]] ∧
    (split (idTensor [5]) (.sections [7]) 0).map
        (fun ps => (ps.getD 0 (idTensor [])).fn [6]) = .ok [6] ∧
    inBounds [(6 : Int)] [7] ∧
    ¬ inBounds [(6 : Int)] (idTensor [5]).shape ∧
    ¬ ∃ c, inBounds c (idTensor [5]).shape ∧ (idTensor [5]).fn c = [6] := by
  refine ⟨List.chain'_singleton _, by decide, by decide, by decide, by decide, ?_⟩
  rintro ⟨c, hc, he⟩
  have hce : c = [(6 : Int)] := he
  subst hce
  exact absurd hc (by decide)

end Topi
